import Mathlib

/-!
Verification of the EDDN-RealTime websocket relay (eddnws).

This file gives a shallow embedding of the three Python source modules
(eddnreceiver.py, websocketrelay.py, eddnws.py) and proves properties of the
embedded definitions.

Conventions of the embedding:
* byte strings and text are modelled as lists of naturals (byte values or
  code points), except for small fixed protocol strings (close reasons, HTTP
  bodies), which are modelled as Lean strings;
* the zlib decompressor is external C code; a call
  zlib.decompressobj().decompress(msg, max_length) is modelled by an oracle
  function producing the resulting decompressor state (output bytes,
  unconsumed_tail, unused_data, eof flag);
* orjson.loads / orjson.dumps are external Rust code; they are modelled by an
  executable JSON value type with a serializer and a recursive-descent parser.
  The model restricts JSON numbers to integers and does not model
  insignificant whitespace in parser input; no claim below depends on either.
-/

/-- Byte strings (and JSON string contents) as lists of naturals. -/
abbrev Bytes := List Nat

/-- JSON values as handled by the orjson model: null, booleans, (integer)
numbers, strings, arrays, and objects given as association lists in document
order. -/
inductive Json where
| null : Json
| bool (b : Bool) : Json
| num (n : Int) : Json
| str (s : Bytes) : Json
| arr (xs : List Json) : Json
| obj (fields : List (Bytes × Json)) : Json

/-- Lower-case hex digit byte for a value below 16. -/
def hexDig (x : Nat) : Nat := if x < 10 then 48 + x else 87 + x

/-- Value of a hex digit byte. -/
def hexVal (c : Nat) : Nat := if c ≤ 57 then c - 48 else c - 87

/-- Is this byte an ASCII decimal digit? -/
def isDigit (c : Nat) : Bool := 48 ≤ c && c ≤ 57

/-- Is this byte a lower-case hex digit? -/
def isHex (c : Nat) : Bool := (48 ≤ c && c ≤ 57) || (97 ≤ c && c ≤ 102)

/-- JSON string escaping of one code point: quote and backslash get a
backslash escape, control characters a \u00XX escape, everything else is
emitted as itself. -/
def escChar (c : Nat) : Bytes :=
  if c = 34 then [92, 34]
  else if c = 92 then [92, 92]
  else if c < 32 then [92, 117, 48, 48, hexDig (c / 16), hexDig (c % 16)]
  else [c]

/-- JSON string escaping of a whole string body. -/
def escStr : Bytes → Bytes
| [] => []
| c :: t => escChar c ++ escStr t

/-- Decimal digits (as bytes) of a natural number. -/
def natDump (n : Nat) : Bytes :=
  if n = 0 then [48] else ((Nat.digits 10 n).reverse).map (fun d => d + 48)

/-- Decimal serialization of an integer. -/
def intDump (n : Int) : Bytes :=
  if n < 0 then 45 :: natDump n.natAbs else natDump n.natAbs

mutual

/-- Model of orjson.dumps with compact separators: serialize a JSON value. -/
def dumpJson : Json → Bytes
| .null => [110, 117, 108, 108]
| .bool true => [116, 114, 117, 101]
| .bool false => [102, 97, 108, 115, 101]
| .num n => intDump n
| .str s => 34 :: (escStr s ++ [34])
| .arr [] => [91, 93]
| .arr (x :: xs) => 91 :: (dumpJson x ++ dumpElems xs) ++ [93]
| .obj [] => [123, 125]
| .obj (f :: fs) => 123 :: (dumpField f ++ dumpFields fs) ++ [125]

/-- Serialize the remaining elements of a non-empty array, each preceded by a
comma. -/
def dumpElems : List Json → Bytes
| [] => []
| x :: xs => 44 :: (dumpJson x ++ dumpElems xs)

/-- Serialize one object member as key, colon, value. -/
def dumpField : Bytes × Json → Bytes
| (k, v) => 34 :: (escStr k ++ [34, 58]) ++ dumpJson v

/-- Serialize the remaining members of a non-empty object, each preceded by a
comma. -/
def dumpFields : List (Bytes × Json) → Bytes
| [] => []
| f :: fs => 44 :: (dumpField f ++ dumpFields fs)

end

/-- Byte-wise lexicographic less-or-equal on keys. -/
def keyLe : Bytes → Bytes → Bool
| [], _ => true
| _ :: _, [] => false
| a :: as, b :: bs => if a < b then true else if b < a then false else keyLe as bs

/-- Insert one keyed entry into a key-sorted entry list (insertion-sort
step). -/
def insField {α : Type} (p : Bytes × α) : List (Bytes × α) → List (Bytes × α)
| [] => [p]
| q :: t => if keyLe p.1 q.1 then p :: q :: t else q :: insField p t

/-- Sort keyed entries by key (stable insertion sort). -/
def sortFields {α : Type} : List (Bytes × α) → List (Bytes × α)
| [] => []
| p :: t => insField p (sortFields t)

mutual

/-- Model of the orjson OPT_SORT_KEYS option: sort object keys at every
nesting depth. -/
def sortJson : Json → Json
| .null => .null
| .bool b => .bool b
| .num n => .num n
| .str s => .str s
| .arr xs => .arr (sortList xs)
| .obj fs => .obj (sortFields (sortVals fs))

/-- Sort the keys of every element of an array. -/
def sortList : List Json → List Json
| [] => []
| x :: xs => sortJson x :: sortList xs

/-- Sort the keys of every member value of an object. -/
def sortVals : List (Bytes × Json) → List (Bytes × Json)
| [] => []
| p :: t => (p.1, sortJson p.2) :: sortVals t

end

/-- Parse a JSON string body after the opening quote, undoing the escapes
produced by escChar; returns the string contents and the rest of the input. -/
def parseStrBody : Bytes → Option (Bytes × Bytes)
| [] => none
| c :: r =>
  if c = 34 then some ([], r)
  else if c = 92 then
    match r with
    | 34 :: t => (parseStrBody t).map (fun p => (34 :: p.1, p.2))
    | 92 :: t => (parseStrBody t).map (fun p => (92 :: p.1, p.2))
    | 117 :: h1 :: h2 :: h3 :: h4 :: t =>
      if isHex h1 && isHex h2 && isHex h3 && isHex h4 then
        (parseStrBody t).map
          (fun p => ((hexVal h1 * 4096 + hexVal h2 * 256 + hexVal h3 * 16 + hexVal h4) :: p.1, p.2))
      else none
    | _ => none
  else (parseStrBody r).map (fun p => (c :: p.1, p.2))

/-- Split off the leading run of decimal digits. -/
def takeDigits : Bytes → Bytes × Bytes
| [] => ([], [])
| c :: r =>
  if isDigit c then
    let p := takeDigits r
    (c :: p.1, p.2)
  else ([], c :: r)

/-- Numeric value of a digit run. -/
def digitsVal (ds : Bytes) : Nat := ds.foldl (fun a c => 10 * a + (c - 48)) 0

/-- Parse a JSON (integer) number. -/
def parseNum : Bytes → Option (Json × Bytes)
| [] => none
| c :: r =>
  if c = 45 then
    let p := takeDigits r
    if p.1 = [] then none else some (.num (-(digitsVal p.1 : Int)), p.2)
  else
    let p := takeDigits (c :: r)
    if p.1 = [] then none else some (.num ((digitsVal p.1 : Int)), p.2)

mutual

/-- Fueled recursive-descent JSON parser: one value and the remaining
input. -/
def parseJ : Nat → Bytes → Option (Json × Bytes)
| 0, _ => none
| Nat.succ f, s =>
  match s with
  | [] => none
  | c :: r =>
    if c = 110 then
      match r with
      | 117 :: 108 :: 108 :: t => some (.null, t)
      | _ => none
    else if c = 116 then
      match r with
      | 114 :: 117 :: 101 :: t => some (.bool true, t)
      | _ => none
    else if c = 102 then
      match r with
      | 97 :: 108 :: 115 :: 101 :: t => some (.bool false, t)
      | _ => none
    else if c = 34 then (parseStrBody r).map (fun p => (.str p.1, p.2))
    else if c = 91 then
      match r with
      | [] => none
      | d :: t =>
        if d = 93 then some (.arr [], t)
        else (parseElems f (d :: t)).map (fun p => (.arr p.1, p.2))
    else if c = 123 then
      match r with
      | [] => none
      | d :: t =>
        if d = 125 then some (.obj [], t)
        else (parseMembers f (d :: t)).map (fun p => (.obj p.1, p.2))
    else parseNum (c :: r)

/-- Parse the comma-separated elements of a non-empty array up to and
including the closing bracket. -/
def parseElems : Nat → Bytes → Option (List Json × Bytes)
| 0, _ => none
| Nat.succ f, s =>
  match parseJ f s with
  | none => none
  | some (v, r) =>
    match r with
    | [] => none
    | d :: t =>
      if d = 44 then (parseElems f t).map (fun p => (v :: p.1, p.2))
      else if d = 93 then some ([v], t)
      else none

/-- Parse the comma-separated members of a non-empty object up to and
including the closing brace. -/
def parseMembers : Nat → Bytes → Option (List (Bytes × Json) × Bytes)
| 0, _ => none
| Nat.succ f, s =>
  match s with
  | [] => none
  | c :: r =>
    if c = 34 then
      match parseStrBody r with
      | none => none
      | some (k, r1) =>
        match r1 with
        | [] => none
        | d :: t =>
          if d = 58 then
            match parseJ f t with
            | none => none
            | some (v, r2) =>
              match r2 with
              | [] => none
              | e :: u =>
                if e = 44 then (parseMembers f u).map (fun p => ((k, v) :: p.1, p.2))
                else if e = 125 then some ([(k, v)], u)
                else none
          else none
    else none

end

/-- Model of orjson.loads: parse a whole byte string as one JSON value. The
fuel is generous for the input length, so that parsing a serialized value
always succeeds (proved below). -/
def loads (s : Bytes) : Option Json :=
  match parseJ (2 * s.length + 2) s with
  | some (v, []) => some v
  | _ => none

/-- The decode error kinds: the six kinds named by the specification plus the
empty-message kind the code actually raises for an empty decompressed
payload. -/
inductive DecodeError where
| empty
| size_limit_exceeded
| trailing_garbage
| truncated
| empty_message
| invalid_json
| missing_schema_ref
deriving DecidableEq

/-- The six decode-error kinds of the specification taxonomy. -/
def specTaxonomy : List DecodeError :=
  [.empty, .size_limit_exceeded, .trailing_garbage, .truncated, .missing_schema_ref, .invalid_json]

/-- State of a zlib decompressor object after decompress(msg, max_length):
the produced output, the unconsumed tail (non-empty exactly when the
max_length cap stopped decompression before the stream footer), the unused
data after the deflate stream, and the end-of-stream flag. -/
structure ZlibResult where
  output : Bytes
  unconsumed_tail : Bytes
  unused_data : Bytes
  eof : Bool

/-- The key "$schemaRef" as bytes. -/
def schemaRefKey : Bytes := [36, 115, 99, 104, 101, 109, 97, 82, 101, 102]

/-- Python check: isinstance(data, dict) and "$schemaRef" in data. -/
def isEnvelope : Json → Bool
| .obj fs => fs.any (fun p => p.1 == schemaRefKey)
| _ => false

/-- Model of EDDNReceiver._decode_msg (eddnreceiver.py lines 144-188): the
decompressor call is the oracle argument; the checks and their order are the
ones of the source. -/
def decode_msg (decompress : Bytes → Nat → ZlibResult) (msg : Bytes)
    (size_limit : Nat) : Except DecodeError Bytes :=
  if msg = [] then .error .empty
  else
    let dobj := decompress msg size_limit
    if dobj.unconsumed_tail ≠ [] then .error .size_limit_exceeded
    else if dobj.unused_data ≠ [] then .error .trailing_garbage
    else if dobj.eof = false then .error .truncated
    else if dobj.output = [] then .error .empty_message
    else
      match loads dobj.output with
      | none => .error .invalid_json
      | some data =>
        if isEnvelope data then .ok (dumpJson (sortJson data))
        else .error .missing_schema_ref

/-- A decompressor oracle with a constant result, for concrete inputs. -/
def zlibConst (out tail unused : Bytes) (e : Bool) : Bytes → Nat → ZlibResult :=
  fun _ _ => ⟨out, tail, unused, e⟩

/-- Configuration options of WebsocketRelay (websocketrelay.py Options
dataclass); only the fields that drive the modelled behaviour are kept, the
listen endpoint fields are plumbing. close_delay is a Python float, modelled
as a rational. -/
structure RelayOptions where
  close_delay : ℚ
  ping_path : Option String
  send_text : Bool
  connection_limit : Int
  client_buffer_limit : Int
  client_check_interval : Int
deriving DecidableEq

/-- The dataclass defaults of WebsocketRelay.Options. -/
def defaultRelayOptions : RelayOptions :=
  { close_delay := 0
    ping_path := none
    send_text := true
    connection_limit := 1000
    client_buffer_limit := 1048576
    client_check_interval := 0 }

/-- A task slot: no task object (None), a live task, or a finished task. -/
inductive TaskState where
| notCreated
| running
| done
deriving DecidableEq

/-- The mutable relay-engine state of websocketrelay.py: the connection-set
size, the relay task and monitor task slots, the pending close timer (holding
the delay it was armed with), whether the iterator reference is set, and the
result of the stop future (none while the future is pending). -/
structure RelayState where
  conns : Nat
  relayTask : TaskState
  monitorTask : TaskState
  timer : Option ℚ
  iterSet : Bool
  stopReason : Option String
deriving DecidableEq

/-- Model of WebsocketRelay._relay_start (lines 122-147): a duplicate start
is a warned no-op; otherwise create the iterator, start the relay task, and
start the monitor task only if both client_check_interval and
client_buffer_limit are positive. -/
def relay_start (o : RelayOptions) (s : RelayState) : RelayState :=
  if s.relayTask = .running ∨ s.monitorTask = .running then s
  else
    { s with
      iterSet := true
      relayTask := .running
      monitorTask :=
        if 0 < o.client_check_interval ∧ 0 < o.client_buffer_limit then .running
        else s.monitorTask }

/-- Model of WebsocketRelay._relay_stop (lines 150-172): cancel the close
timer, cancel both tasks, clear the iterator reference. -/
def relay_stop (s : RelayState) : RelayState :=
  { s with
    timer := none
    relayTask := .notCreated
    monitorTask := .notCreated
    iterSet := false }

/-- Model of WebsocketRelay._relay_close (lines 175-186): (re)arm the close
timer with call_later(close_delay, relay_stop). -/
def relay_close (o : RelayOptions) (s : RelayState) : RelayState :=
  { s with timer := some o.close_delay }

/-- Model of WebsocketRelay._relay_close_cancel (lines 189-198). -/
def relay_close_cancel (s : RelayState) : RelayState :=
  { s with timer := none }

/-- What _ws_handler did to a freshly handshaken connection. -/
inductive ConnectOutcome where
| closed (code : Nat) (reason : String)
| accepted
deriving DecidableEq

/-- Model of WebsocketRelay._ws_handler before wait_closed (lines 273-292):
the post-handshake connection-limit check closes over-limit clients with 1013
without adding them; an accepted client is added to the set, and for
close_delay greater or equal zero a pending close timer is cancelled and the
relay is started when no relay task is live. -/
def ws_handler_connect (o : RelayOptions) (s : RelayState) : RelayState × ConnectOutcome :=
  if 0 < o.connection_limit ∧ o.connection_limit ≤ (s.conns : Int) then
    (s, .closed 1013 ("Connection limit reached"))
  else
    let s1 : RelayState := { s with conns := s.conns + 1 }
    if 0 ≤ o.close_delay then
      let s2 := relay_close_cancel s1
      if s2.relayTask ≠ .running then (relay_start o s2, .accepted)
      else (s2, .accepted)
    else (s1, .accepted)

/-- Model of the finally-block of WebsocketRelay._ws_handler (lines 301-307):
remove the connection; if it was the last one, a relay task object exists and
close_delay is greater or equal zero, arm the close timer. -/
def ws_handler_disconnect (o : RelayOptions) (s : RelayState) : RelayState :=
  if s.conns = 0 then s
  else
    let s1 : RelayState := { s with conns := s.conns - 1 }
    if s1.conns = 0 ∧ s1.relayTask ≠ .notCreated ∧ 0 ≤ o.close_delay then relay_close o s1
    else s1

/-- Model of the except/finally blocks of WebsocketRelay._relay_messages
(lines 215-223): when the upstream iterator ends or raises (not cancelled:
a cancelled task has had its slot cleared by relay_stop first), the task
finishes and the stop future is resolved with "Iterator EOF" unless it is
already resolved. -/
def relay_iter_end (s : RelayState) : RelayState :=
  if s.relayTask = .running then
    { s with
      relayTask := .done
      stopReason :=
        match s.stopReason with
        | none => some ("Iterator EOF")
        | some r => some r }
  else s

/-- The events the relay engine processes on the event-loop task. -/
inductive REvent where
| connect
| disconnect
| timerFire
| iterEnd
| monitorCrash
| signalStop (reason : String)
| serveStop
deriving DecidableEq

/-- One event-loop step of the relay engine. timerFire is the close timer
callback (possible only while the timer is armed); monitorCrash is the
monitor task exiting after catching an exception (websocketrelay.py lines
326-328); signalStop is a termination signal resolving the stop future;
serveStop is the relay_stop call in serve after the stop future resolved. -/
def stepEvent (o : RelayOptions) (s : RelayState) : REvent → RelayState
| .connect => (ws_handler_connect o s).1
| .disconnect => ws_handler_disconnect o s
| .timerFire => if s.timer ≠ none then relay_stop s else s
| .iterEnd => relay_iter_end s
| .monitorCrash => if s.monitorTask = .running then { s with monitorTask := .done } else s
| .signalStop r =>
  { s with
    stopReason :=
      match s.stopReason with
      | none => some r
      | some r0 => some r0 }
| .serveStop => if s.stopReason ≠ none then relay_stop s else s

/-- The engine state at the start of serve (lines 331-390): everything unset;
with a negative close_delay the relay is started eagerly. -/
def initRelayState : RelayState :=
  { conns := 0
    relayTask := .notCreated
    monitorTask := .notCreated
    timer := none
    iterSet := false
    stopReason := none }

/-- Server start state. -/
def serveInit (o : RelayOptions) : RelayState :=
  if o.close_delay < 0 then relay_start o initRelayState else initRelayState

/-- States the relay engine can reach from server start. -/
inductive Reachable (o : RelayOptions) : RelayState → Prop where
| init : Reachable o (serveInit o)
| step (e : REvent) {s : RelayState} : Reachable o s → Reachable o (stepEvent o s e)

/-- Invariant of the on-demand lifecycle while the server is not shutting
down: the relay task (owner of the upstream subscription) is live exactly
when a client is connected or the close timer is armed; a live monitor
implies a live relay task; the relay task cannot have finished; an armed
timer implies an empty connection set. -/
def LifecycleInv (s : RelayState) : Prop :=
  s.stopReason = none →
    ((s.relayTask = .running) ↔ (0 < s.conns ∨ s.timer ≠ none)) ∧
    (s.monitorTask = .running → s.relayTask = .running) ∧
    s.relayTask ≠ .done ∧
    (s.timer ≠ none → s.conns = 0)

theorem lifecycleInv_init (o : RelayOptions) (hcd : 0 ≤ o.close_delay) :
    LifecycleInv (serveInit o) := by
  have h : ¬ o.close_delay < 0 := not_lt.mpr hcd
  intro _
  refine ⟨?_, ?_, ?_, ?_⟩ <;> simp [serveInit, if_neg h, initRelayState]

theorem lifecycleInv_step (o : RelayOptions) (hcd : 0 ≤ o.close_delay) (s : RelayState)
    (ih : LifecycleInv s) (e : REvent) : LifecycleInv (stepEvent o s e) := by
  cases e with
  | connect =>
    simp only [stepEvent, ws_handler_connect]
    by_cases hlim : (0 < o.connection_limit ∧ o.connection_limit ≤ (s.conns : Int))
    · rw [if_pos hlim]
      exact ih
    · rw [if_neg hlim, if_pos hcd]
      by_cases hrt : s.relayTask = TaskState.running
      · rw [if_neg (by simp [relay_close_cancel, hrt])]
        intro _
        refine ⟨by simp [relay_close_cancel, hrt], by simp [relay_close_cancel, hrt],
          by simp [relay_close_cancel, hrt], by simp [relay_close_cancel]⟩
      · by_cases hmon2 : s.monitorTask = TaskState.running
        · rw [if_pos (by simp [relay_close_cancel, hrt])]
          simp only [relay_start, relay_close_cancel]
          rw [if_pos (by simp [hmon2])]
          intro hstop
          have hstop2 : s.stopReason = none := hstop
          exact absurd ((ih hstop2).2.1 hmon2) hrt
        · rw [if_pos (by simp [relay_close_cancel, hrt])]
          simp only [relay_start, relay_close_cancel]
          rw [if_neg (by simp [hrt, hmon2])]
          intro _
          refine ⟨by simp, by simp, by simp, by simp⟩
  | disconnect =>
    simp only [stepEvent, ws_handler_disconnect]
    by_cases hc0 : s.conns = 0
    · rw [if_pos hc0]
      exact ih
    · rw [if_neg hc0]
      by_cases hbr : (s.conns - 1 = 0 ∧ s.relayTask ≠ TaskState.notCreated ∧ 0 ≤ o.close_delay)
      · rw [if_pos (by simpa using hbr)]
        intro hstop
        have hstop2 : s.stopReason = none := hstop
        obtain ⟨hiff, hmon, hdone, htimer⟩ := ih hstop2
        have hrun : s.relayTask = TaskState.running := hiff.mpr (Or.inl (Nat.pos_of_ne_zero hc0))
        simp only [relay_close]
        refine ⟨by simp [hrun], by simpa using hmon, by simpa using hdone, by simp [hbr.1]⟩
      · rw [if_neg (by simpa using hbr)]
        intro hstop
        have hstop2 : s.stopReason = none := hstop
        obtain ⟨hiff, hmon, hdone, htimer⟩ := ih hstop2
        have hrun : s.relayTask = TaskState.running := hiff.mpr (Or.inl (Nat.pos_of_ne_zero hc0))
        have htn : s.timer = none := by
          by_contra h
          exact hc0 (htimer h)
        push_neg at hbr
        have hcpos : 0 < s.conns - 1 := by
          rcases Nat.eq_zero_or_pos (s.conns - 1) with h | h
          · exact absurd (hbr h (by simp [hrun])) (not_lt.mpr hcd)
          · exact h
        refine ⟨by simp [hrun, hcpos], by simpa using hmon, by simpa using hdone, by simp [htn]⟩
  | timerFire =>
    simp only [stepEvent]
    by_cases ht : s.timer ≠ none
    · rw [if_pos ht]
      intro hstop
      have hstop2 : s.stopReason = none := hstop
      obtain ⟨hiff, hmon, hdone, htimer⟩ := ih hstop2
      simp only [relay_stop]
      refine ⟨by simp [htimer ht], by simp, by simp, by simp⟩
    · rw [if_neg ht]
      exact ih
  | iterEnd =>
    simp only [stepEvent, relay_iter_end]
    by_cases hrt : s.relayTask = TaskState.running
    · rw [if_pos hrt]
      intro hstop
      exfalso
      revert hstop
      cases h : s.stopReason <;> simp [h]
    · rw [if_neg hrt]
      exact ih
  | monitorCrash =>
    simp only [stepEvent]
    by_cases hm : s.monitorTask = TaskState.running
    · rw [if_pos hm]
      intro hstop
      have hstop2 : s.stopReason = none := hstop
      obtain ⟨hiff, hmon, hdone, htimer⟩ := ih hstop2
      exact ⟨by simpa using hiff, by simp, by simpa using hdone, by simpa using htimer⟩
    · rw [if_neg hm]
      exact ih
  | signalStop r =>
    intro hstop
    exfalso
    revert hstop
    simp only [stepEvent]
    cases h : s.stopReason <;> simp [h]
  | serveStop =>
    simp only [stepEvent]
    by_cases h : s.stopReason ≠ none
    · rw [if_pos h]
      intro hstop
      exact absurd (show s.stopReason = none from hstop) h
    · rw [if_neg h]
      exact ih

theorem lifecycleInv_reachable (o : RelayOptions) (hcd : 0 ≤ o.close_delay) (s : RelayState)
    (hr : Reachable o s) : LifecycleInv s := by
  induction hr with
  | init => exact lifecycleInv_init o hcd
  | step e _ ih => exact lifecycleInv_step o hcd _ ih e

/-- C1: when close_delay is nonnegative, in every reachable engine state
while the server is not shutting down, the upstream subscription (the live
relay task, which owns the iterator) is connected exactly when at least one
client is in the connection set or the pending-stop timer is armed; moreover,
the first client added starts the iterator and the relay task, removing the
last client arms the close timer for close_delay seconds, a client added
while the timer is armed cancels the timer (and the relay keeps running), and
the timer firing cancels both tasks and clears the iterator reference. -/
theorem c1_lifecycle_gating (o : RelayOptions) (s : RelayState)
    (hcd : 0 ≤ o.close_delay) (hr : Reachable o s) (hstop : s.stopReason = none) :
    ((s.relayTask = .running) ↔ (0 < s.conns ∨ s.timer ≠ none)) ∧
    (s.conns = 0 → s.timer = none →
      (stepEvent o s .connect).relayTask = .running ∧ (stepEvent o s .connect).iterSet = true) ∧
    (s.conns = 1 → (stepEvent o s .disconnect).timer = some o.close_delay) ∧
    (s.timer ≠ none →
      (stepEvent o s .connect).timer = none ∧ (stepEvent o s .connect).relayTask = .running) ∧
    (s.timer ≠ none →
      (stepEvent o s .timerFire).relayTask = .notCreated ∧
      (stepEvent o s .timerFire).monitorTask = .notCreated ∧
      (stepEvent o s .timerFire).iterSet = false ∧
      (stepEvent o s .timerFire).timer = none) := by
  obtain ⟨hiff, hmon, hdone, htimer⟩ := lifecycleInv_reachable o hcd s hr hstop
  refine ⟨hiff, ?_, ?_, ?_, ?_⟩
  · intro hc ht
    have hlim : ¬(0 < o.connection_limit ∧ o.connection_limit ≤ (s.conns : Int)) := by
      rintro ⟨h1, h2⟩
      rw [hc] at h2
      simp at h2
      omega
    have hrt : s.relayTask ≠ TaskState.running := by
      intro h
      rcases hiff.mp h with h2 | h2
      · omega
      · exact h2 ht
    have hm : s.monitorTask ≠ TaskState.running := fun h => hrt (hmon h)
    simp only [stepEvent, ws_handler_connect]
    rw [if_neg hlim, if_pos hcd]
    rw [if_pos (by simp [relay_close_cancel, hrt])]
    simp only [relay_start, relay_close_cancel]
    rw [if_neg (by simp [hrt, hm])]
    exact ⟨rfl, rfl⟩
  · intro h1
    have hrun : s.relayTask = TaskState.running := hiff.mpr (Or.inl (by omega))
    simp only [stepEvent, ws_handler_disconnect]
    rw [if_neg (by omega)]
    rw [if_pos (by refine ⟨by omega, by simp [hrun], hcd⟩)]
    rfl
  · intro ht
    have hc := htimer ht
    have hrun : s.relayTask = TaskState.running := hiff.mpr (Or.inr ht)
    have hlim : ¬(0 < o.connection_limit ∧ o.connection_limit ≤ (s.conns : Int)) := by
      rintro ⟨h1, h2⟩
      rw [hc] at h2
      simp at h2
      omega
    simp only [stepEvent, ws_handler_connect]
    rw [if_neg hlim, if_pos hcd]
    rw [if_neg (by simp [relay_close_cancel, hrun])]
    exact ⟨rfl, by simp [relay_close_cancel, hrun]⟩
  · intro ht
    simp only [stepEvent]
    rw [if_pos ht]
    exact ⟨rfl, rfl, rfl, rfl⟩

/-- Witness for c1_lifecycle_gating: the default options have close_delay 0
and the state after the first client connected is reachable, not stopping,
and satisfies the gating equivalence. -/
theorem c1_lifecycle_gating_witness :
    (0:ℚ) ≤ defaultRelayOptions.close_delay ∧
    (stepEvent defaultRelayOptions (serveInit defaultRelayOptions) .connect).stopReason = none ∧
    (((stepEvent defaultRelayOptions (serveInit defaultRelayOptions) .connect).relayTask = .running) ↔
      (0 < (stepEvent defaultRelayOptions (serveInit defaultRelayOptions) .connect).conns ∨
       (stepEvent defaultRelayOptions (serveInit defaultRelayOptions) .connect).timer ≠ none)) :=
  ⟨le_refl 0, rfl,
    (c1_lifecycle_gating defaultRelayOptions _ (le_refl 0)
      (Reachable.step .connect Reachable.init) rfl).1⟩

/-- An incoming HTTP request as seen by process_request: its path and the
value of the Upgrade header, when present. -/
structure HttpRequest where
  path : String
  upgradeHeader : Option String
deriving DecidableEq

/-- An HTTP response produced before the websocket handshake: status code and
body (the source also sets a text/plain content type, plumbing). -/
structure HttpResponse where
  status : Nat
  body : String
deriving DecidableEq

/-- Python truthiness check for the health endpoint, as in the source line:
if self.options.ping_path and request.path == self.options.ping_path. -/
def pingRequested (o : RelayOptions) (req : HttpRequest) : Bool :=
  match o.ping_path with
  | some p => (!(p == "")) && (req.path == p)
  | none => false

/-- Model of WebsocketRelay._process_request (websocketrelay.py lines
100-119): answer health checks with 200 OK, reject websocket upgrades over
the connection limit with 503 before the handshake, otherwise return none to
let the handshake proceed. -/
def process_request (o : RelayOptions) (nconns : Nat) (req : HttpRequest) : Option HttpResponse :=
  if pingRequested o req then some ⟨200, ("OK\n")⟩
  else if req.upgradeHeader = some ("websocket") ∧ 0 < o.connection_limit ∧
      o.connection_limit ≤ (nconns : Int) then
    some ⟨503, ("Connection limit reached\n")⟩
  else none

theorem relay_start_conns (o : RelayOptions) (s : RelayState) :
    (relay_start o s).conns = s.conns := by
  unfold relay_start
  split <;> rfl

theorem ws_handler_connect_conns (o : RelayOptions) (s : RelayState) :
    (ws_handler_connect o s).1.conns = s.conns ∨
    ((ws_handler_connect o s).1.conns = s.conns + 1 ∧
      ¬(0 < o.connection_limit ∧ o.connection_limit ≤ (s.conns : Int))) := by
  simp only [ws_handler_connect]
  split_ifs with h1 h2 h3
  · exact Or.inl rfl
  · refine Or.inr ⟨?_, h1⟩
    rw [relay_start_conns]
    rfl
  · exact Or.inr ⟨rfl, h1⟩
  · exact Or.inr ⟨rfl, h1⟩

theorem stepEvent_conns_nonincreasing (o : RelayOptions) (s : RelayState) (e : REvent)
    (h : e ≠ .connect) : (stepEvent o s e).conns ≤ s.conns := by
  cases e with
  | connect => exact absurd rfl h
  | disconnect =>
    simp only [stepEvent, ws_handler_disconnect]
    split_ifs <;> simp [relay_close]
  | timerFire =>
    simp only [stepEvent]
    split_ifs <;> simp [relay_stop]
  | iterEnd =>
    simp only [stepEvent, relay_iter_end]
    split_ifs <;> simp
  | monitorCrash =>
    simp only [stepEvent]
    split_ifs <;> simp
  | signalStop r => simp [stepEvent]
  | serveStop =>
    simp only [stepEvent]
    split_ifs <;> simp [relay_stop]

/-- The connection-cap invariant over all reachable states. -/
theorem connCap_reachable (o : RelayOptions) (s : RelayState) (hr : Reachable o s)
    (hlim : 0 < o.connection_limit) : (s.conns : Int) ≤ o.connection_limit := by
  induction hr with
  | init =>
    have h0 : (serveInit o).conns = 0 := by
      unfold serveInit
      split
      · rw [relay_start_conns]
        rfl
      · rfl
    rw [h0]
    omega
  | @step e s2 hprev ih =>
    by_cases hc : e = REvent.connect
    · subst hc
      rcases ws_handler_connect_conns o s2 with h | ⟨h, hn⟩
      · simp only [stepEvent]
        rw [h]
        exact ih
      · simp only [stepEvent]
        rw [h]
        push_neg at hn
        have := hn hlim
        push_cast
        omega
    · have h2 := stepEvent_conns_nonincreasing o s2 e hc
      have hcast : ((stepEvent o s2 e).conns : Int) ≤ (s2.conns : Int) := Int.ofNat_le.mpr h2
      exact le_trans hcast ih

/-- C4: when connection_limit is positive, the connection-set size never
exceeds connection_limit in any reachable state; a websocket upgrade arriving
at the limit is answered 503 before the handshake by process_request; and a
handshake that races past the pre-upgrade check is closed post-handshake by
the handler with code 1013 reason Connection limit reached without being
added to the set. -/
theorem c4_connection_cap (o : RelayOptions) (s : RelayState) (hr : Reachable o s)
    (hlim : 0 < o.connection_limit) :
    (s.conns : Int) ≤ o.connection_limit ∧
    (∀ req : HttpRequest, pingRequested o req = false →
      req.upgradeHeader = some ("websocket") → o.connection_limit ≤ (s.conns : Int) →
      process_request o s.conns req = some ⟨503, ("Connection limit reached\n")⟩) ∧
    (o.connection_limit ≤ (s.conns : Int) →
      ws_handler_connect o s = (s, .closed 1013 ("Connection limit reached"))) := by
  refine ⟨connCap_reachable o s hr hlim, ?_, ?_⟩
  · intro req hping hup hle
    unfold process_request
    rw [if_neg (by simp [hping]), if_pos ⟨hup, hlim, hle⟩]
  · intro hle
    unfold ws_handler_connect
    rw [if_pos ⟨hlim, hle⟩]

/-- Options with connection_limit one, for the capacity witness. -/
def capOpts : RelayOptions := { defaultRelayOptions with connection_limit := 1 }

/-- Witness for c4_connection_cap: with limit one and one client connected,
an upgrade is 503-rejected pre-handshake and 1013-closed post-handshake. -/
theorem c4_connection_cap_witness :
    (0:Int) < capOpts.connection_limit ∧
    process_request capOpts (stepEvent capOpts (serveInit capOpts) .connect).conns
      ⟨("/feed"), some ("websocket")⟩ = some ⟨503, ("Connection limit reached\n")⟩ ∧
    ws_handler_connect capOpts (stepEvent capOpts (serveInit capOpts) .connect) =
      (stepEvent capOpts (serveInit capOpts) .connect, .closed 1013 ("Connection limit reached")) :=
  ⟨by decide,
    (c4_connection_cap capOpts _ (Reachable.step .connect Reachable.init) (by decide)).2.1
      ⟨("/feed"), some ("websocket")⟩ rfl rfl (by decide),
    (c4_connection_cap capOpts _ (Reachable.step .connect Reachable.init) (by decide)).2.2
      (by decide)⟩

/-- C6: in any reachable state of the on-demand lifecycle that is RUNNING or
STOP_PENDING (a client connected or the close timer armed, stop future
pending), the relay task is live, and the upstream iterator ending or failing
resolves the global stop future with the descriptive reason Iterator EOF
(which is what triggers server shutdown); the relay task is left finished,
and no new iterator or task is created in-process. -/
theorem c6_upstream_end_resolves_stop (o : RelayOptions) (s : RelayState)
    (hcd : 0 ≤ o.close_delay) (hr : Reachable o s) (hstop : s.stopReason = none)
    (hrun : 0 < s.conns ∨ s.timer ≠ none) :
    s.relayTask = .running ∧
    (stepEvent o s .iterEnd).stopReason = some ("Iterator EOF") ∧
    (stepEvent o s .iterEnd).relayTask = .done ∧
    (stepEvent o s .iterEnd).iterSet = s.iterSet ∧
    (stepEvent o s .iterEnd).conns = s.conns := by
  obtain ⟨hiff, hmon, hdone, htimer⟩ := lifecycleInv_reachable o hcd s hr hstop
  have hr2 := hiff.mpr hrun
  simp only [stepEvent, relay_iter_end]
  rw [if_pos hr2]
  exact ⟨hr2, by simp [hstop], rfl, rfl, rfl⟩

/-- Witness for c6_upstream_end_resolves_stop: after one client connects the
relay task is live, and the iterator ending resolves the stop future with
Iterator EOF. -/
theorem c6_upstream_end_witness :
    ((stepEvent defaultRelayOptions (serveInit defaultRelayOptions) .connect).relayTask = .running) ∧
    (stepEvent defaultRelayOptions
      (stepEvent defaultRelayOptions (serveInit defaultRelayOptions) .connect) .iterEnd).stopReason =
      some ("Iterator EOF") :=
  ⟨(c6_upstream_end_resolves_stop defaultRelayOptions _ (le_refl 0)
      (Reachable.step .connect Reachable.init) rfl (Or.inl (by decide))).1,
   (c6_upstream_end_resolves_stop defaultRelayOptions _ (le_refl 0)
      (Reachable.step .connect Reachable.init) rfl (Or.inl (by decide))).2.1⟩

/-- C8: for every accepted HTTP request, the pre-upgrade dispatch of the
front door is: a truthy ping_path matching the request path is answered 200
with body OK and no upgrade; otherwise a websocket upgrade with a positive
connection limit already reached is answered 503 with body Connection limit
reached and no upgrade; otherwise the handshake proceeds (none). -/
theorem c8_front_door (o : RelayOptions) (n : Nat) (req : HttpRequest) :
    (pingRequested o req = true → process_request o n req = some ⟨200, ("OK\n")⟩) ∧
    (pingRequested o req = false →
      req.upgradeHeader = some ("websocket") → 0 < o.connection_limit →
      o.connection_limit ≤ (n : Int) →
      process_request o n req = some ⟨503, ("Connection limit reached\n")⟩) ∧
    (pingRequested o req = false →
      ¬(req.upgradeHeader = some ("websocket") ∧ 0 < o.connection_limit ∧
        o.connection_limit ≤ (n : Int)) →
      process_request o n req = none) := by
  refine ⟨?_, ?_, ?_⟩
  · intro h
    unfold process_request
    rw [if_pos h]
  · intro h h1 h2 h3
    unfold process_request
    rw [if_neg (by simp [h]), if_pos ⟨h1, h2, h3⟩]
  · intro h h2
    unfold process_request
    rw [if_neg (by simp [h]), if_neg h2]

/-- Options with a ping path and connection limit one, for the front-door
witness. -/
def pingOpts : RelayOptions :=
  { defaultRelayOptions with ping_path := some ("/ping"), connection_limit := 1 }

/-- Witness for c8_front_door: the three dispatch outcomes at concrete
requests. -/
theorem c8_front_door_witness :
    process_request pingOpts 0 ⟨("/ping"), none⟩ = some ⟨200, ("OK\n")⟩ ∧
    process_request pingOpts 1 ⟨("/feed"), some ("websocket")⟩ =
      some ⟨503, ("Connection limit reached\n")⟩ ∧
    process_request pingOpts 0 ⟨("/feed"), some ("websocket")⟩ = none :=
  ⟨(c8_front_door pingOpts 0 ⟨("/ping"), none⟩).1 (by decide),
   (c8_front_door pingOpts 1 ⟨("/feed"), some ("websocket")⟩).2.1 (by decide) rfl (by decide)
     (by decide),
   (c8_front_door pingOpts 0 ⟨("/feed"), some ("websocket")⟩).2.2 (by decide) (by decide)⟩

/-- One receive result in the EDDNReceiver.__aiter__ loop: a compressed
payload arrived, or the ZMQ socket raised a transport-level error. -/
inductive RecvEvent where
| payload (msg : Bytes)
| transportError

/-- Outcome of one loop iteration of EDDNReceiver.__aiter__. -/
inductive StepOutcome where
| yielded (out : Bytes)
| dropped
| fatalTransport
| fatalDecode (e : DecodeError)
deriving DecidableEq

/-- Model of one iteration of the EDDNReceiver.__aiter__ loop
(eddnreceiver.py lines 100-118): a ZMQ transport error always re-raises
(before the ignore check); a decode failure is dropped when
ignore_decode_errors is set and re-raised otherwise; a successful decode is
yielded. -/
def iterStep (decompress : Bytes → Nat → ZlibResult) (size_limit : Nat)
    (ignore_decode_errors : Bool) : RecvEvent → StepOutcome
| .transportError => .fatalTransport
| .payload m =>
  match decode_msg decompress m size_limit with
  | .ok out => .yielded out
  | .error e => if ignore_decode_errors then .dropped else .fatalDecode e

/-- What ended the iterator, if anything. -/
inductive IterFailure where
| transport
| decode (e : DecodeError)
deriving DecidableEq

/-- Run the iterator loop over a queue of receive events: the envelopes it
yields in order and the failure that ended iteration, if any. -/
def iterRun (d : Bytes → Nat → ZlibResult) (limit : Nat) (ignore : Bool) :
    List RecvEvent → List Bytes × Option IterFailure
| [] => ([], none)
| e :: rest =>
  match iterStep d limit ignore e with
  | .yielded out =>
    let p := iterRun d limit ignore rest
    (out :: p.1, p.2)
  | .dropped => iterRun d limit ignore rest
  | .fatalTransport => ([], some .transport)
  | .fatalDecode err => ([], some (.decode err))

/-- C5: for every payload, a ZMQ transport error always fails the iterator
regardless of configuration, while a decode failure is governed by
ignore_decode_errors: when true the payload is dropped and iteration
continues with the next payload, when false the iterator fails with the
decode error; successful decodes are yielded in order. -/
theorem c5_failure_policy (d : Bytes → Nat → ZlibResult) (limit : Nat) (ignore : Bool) :
    (iterStep d limit ignore .transportError = .fatalTransport) ∧
    (∀ rest, iterRun d limit ignore (.transportError :: rest) = ([], some .transport)) ∧
    (∀ m e rest, decode_msg d m limit = .error e → ignore = true →
      iterRun d limit ignore (.payload m :: rest) = iterRun d limit ignore rest) ∧
    (∀ m e rest, decode_msg d m limit = .error e → ignore = false →
      iterRun d limit ignore (.payload m :: rest) = ([], some (.decode e))) ∧
    (∀ m out rest, decode_msg d m limit = .ok out →
      iterRun d limit ignore (.payload m :: rest) =
        (out :: (iterRun d limit ignore rest).1, (iterRun d limit ignore rest).2)) := by
  refine ⟨rfl, fun rest => rfl, ?_, ?_, ?_⟩
  · intro m e rest hd hi
    simp [iterRun, iterStep, hd, hi]
  · intro m e rest hd hi
    simp [iterRun, iterStep, hd, hi]
  · intro m out rest hd
    simp [iterRun, iterStep, hd]

/-- The JSON text of the object with keys b and $schemaRef, in that order. -/
def exampleEnvelopeBytes : Bytes :=
  [123, 34, 98, 34, 58, 49, 44, 34, 36, 115, 99, 104, 101, 109, 97, 82, 101, 102, 34, 58, 34,
   120, 34, 125]

/-- The parsed value of exampleEnvelopeBytes. -/
def exampleEnvelope : Json :=
  .obj [([98], .num 1), (schemaRefKey, .str [120])]

/-- Witness for c5_failure_policy: an undecodable payload is dropped when
ignoring decode errors, fails the iterator otherwise, and a transport error
fails it in both configurations. -/
theorem c5_failure_policy_witness :
    decode_msg (zlibConst [123] [] [] true) [120] 0 = .error .invalid_json ∧
    iterRun (zlibConst [123] [] [] true) 0 true [.payload [120]] = ([], none) ∧
    iterRun (zlibConst [123] [] [] true) 0 false [.payload [120]] =
      ([], some (.decode .invalid_json)) ∧
    iterRun (zlibConst [123] [] [] true) 0 true [.transportError] = ([], some .transport) :=
  ⟨rfl,
   (c5_failure_policy (zlibConst [123] [] [] true) 0 true).2.2.1 [120] .invalid_json [] rfl rfl,
   (c5_failure_policy (zlibConst [123] [] [] true) 0 false).2.2.2.1 [120] .invalid_json [] rfl rfl,
   (c5_failure_policy (zlibConst [123] [] [] true) 0 true).2.1 []⟩

/-- A websocket client connection as the broadcast and monitor paths see it:
its id, whether the protocol state is OPEN, whether a transport is attached,
and the transport write-buffer size. -/
structure WsConn where
  id : Nat
  stateOpen : Bool
  hasTransport : Bool
  writeBufferSize : Nat
deriving DecidableEq

/-- Websocket frame kinds selected by send_text. -/
inductive FrameKind where
| text
| binary
deriving DecidableEq

/-- What the broadcast loop did with one connection. -/
inductive BroadcastAction where
| skipped
| scheduledClose (code : Nat) (reason : String)
| enqueued (frame : FrameKind) (payload : Bytes)
deriving DecidableEq

/-- Model of the per-connection body of WebsocketRelay._broadcast
(websocketrelay.py lines 238-260): the inline buffer limit is
client_buffer_limit when no periodic monitor is configured
(client_check_interval ≤ 0) and zero otherwise; a connection that is not
OPEN or has no transport is skipped; an inline buffer-limit hit schedules a
1008 close; otherwise the message is enqueued as a text or binary frame per
send_text. A str message has been encoded to bytes beforehand (line 236). -/
def broadcastOne (o : RelayOptions) (message : Bytes) (c : WsConn) : BroadcastAction :=
  let buffer_limit : Int := if o.client_check_interval ≤ 0 then o.client_buffer_limit else 0
  if c.stateOpen = false ∨ c.hasTransport = false then .skipped
  else if 0 < buffer_limit ∧ buffer_limit ≤ (c.writeBufferSize : Int) then
    .scheduledClose 1008 ("Write buffer overrun")
  else .enqueued (if o.send_text then .text else .binary) message

/-- Model of WebsocketRelay._broadcast over the connection set: every member
is handled independently by broadcastOne. -/
def broadcast (o : RelayOptions) (message : Bytes) (conns : List WsConn) :
    List (Nat × BroadcastAction) :=
  conns.map (fun c => (c.id, broadcastOne o message c))

/-- C7: for every envelope broadcast, a member whose protocol state is not
OPEN is skipped; when client_buffer_limit is positive and inline
back-pressure is in effect (client_check_interval ≤ 0) a member whose write
buffer already equals or exceeds the limit gets a close with code 1008
reason Write buffer overrun scheduled and is skipped; every other member has
the envelope enqueued as a text or binary frame per send_text; and the
broadcast handles each member of the connection-set snapshot this way. -/
theorem c7_broadcast_dispatch (o : RelayOptions) (message : Bytes) (c : WsConn) :
    (c.stateOpen = false → broadcastOne o message c = .skipped) ∧
    (c.stateOpen = true → c.hasTransport = true →
      0 < o.client_buffer_limit → o.client_check_interval ≤ 0 →
      o.client_buffer_limit ≤ (c.writeBufferSize : Int) →
      broadcastOne o message c = .scheduledClose 1008 ("Write buffer overrun")) ∧
    (c.stateOpen = true → c.hasTransport = true →
      ¬(0 < o.client_buffer_limit ∧ o.client_check_interval ≤ 0 ∧
        o.client_buffer_limit ≤ (c.writeBufferSize : Int)) →
      broadcastOne o message c =
        .enqueued (if o.send_text then .text else .binary) message) ∧
    (∀ cs : List WsConn, broadcast o message (c :: cs) =
      (c.id, broadcastOne o message c) :: broadcast o message cs) := by
  refine ⟨?_, ?_, ?_, fun cs => rfl⟩
  · intro h
    simp only [broadcastOne]
    rw [if_pos (Or.inl h)]
  · intro h1 h2 hb hi hw
    simp only [broadcastOne]
    rw [if_pos hi]
    rw [if_neg (by simp [h1, h2]), if_pos ⟨hb, hw⟩]
  · intro h1 h2 h3
    simp only [broadcastOne]
    have hcond : ¬(0 < (if o.client_check_interval ≤ 0 then o.client_buffer_limit else (0:Int)) ∧
        (if o.client_check_interval ≤ 0 then o.client_buffer_limit else (0:Int)) ≤
          (c.writeBufferSize : Int)) := by
      by_cases hi : o.client_check_interval ≤ 0
      · rw [if_pos hi]
        intro hc
        exact h3 ⟨hc.1, hi, hc.2⟩
      · rw [if_neg hi]
        intro hc
        exact absurd hc.1 (lt_irrefl 0)
    rw [if_neg (by simp [h1, h2]), if_neg hcond]

/-- Options with inline back-pressure only, for broadcast and monitor
witnesses. -/
def inlineOpts : RelayOptions :=
  { defaultRelayOptions with client_buffer_limit := 1024, client_check_interval := 0 }

/-- Witness for c7_broadcast_dispatch: a non-open member is skipped, an
over-limit member is 1008-closed, a healthy member gets the frame. -/
theorem c7_broadcast_dispatch_witness :
    broadcastOne inlineOpts [104, 105] ⟨1, false, true, 0⟩ = .skipped ∧
    broadcastOne inlineOpts [104, 105] ⟨2, true, true, 2048⟩ =
      .scheduledClose 1008 ("Write buffer overrun") ∧
    broadcastOne inlineOpts [104, 105] ⟨3, true, true, 0⟩ =
      .enqueued (if inlineOpts.send_text then .text else .binary) [104, 105] ∧
    broadcast inlineOpts [104, 105] [⟨1, false, true, 0⟩] =
      (1, broadcastOne inlineOpts [104, 105] ⟨1, false, true, 0⟩) ::
        broadcast inlineOpts [104, 105] [] :=
  ⟨(c7_broadcast_dispatch inlineOpts [104, 105] ⟨1, false, true, 0⟩).1 rfl,
   (c7_broadcast_dispatch inlineOpts [104, 105] ⟨2, true, true, 2048⟩).2.1 rfl rfl (by decide)
     (by decide) (by decide),
   (c7_broadcast_dispatch inlineOpts [104, 105] ⟨3, true, true, 0⟩).2.2.1 rfl rfl (by decide),
   (c7_broadcast_dispatch inlineOpts [104, 105] ⟨1, false, true, 0⟩).2.2.2 []⟩

/-- The ids the monitor sweep schedules a 1008 close for: open connections
with a transport whose write buffer strictly exceeds client_buffer_limit
(websocketrelay.py lines 319-323). -/
def sweepCloses (o : RelayOptions) (conns : List WsConn) : List Nat :=
  (conns.filter (fun c => c.stateOpen && c.hasTransport &&
    decide (o.client_buffer_limit < (c.writeBufferSize : Int)))).map (fun c => c.id)

/-- One monitor loop iteration: a sweep over a snapshot of the connection
set, or an unexpected exception raised inside the loop body. -/
inductive SweepEvent where
| sweep (conns : List WsConn)
| crash

/-- How a finite observation of the monitor task ends: still looping, or the
task exited after catching an exception (nothing propagates to the server). -/
inductive MonitorEnd where
| stillRunning
| exitedCaught
deriving DecidableEq

/-- Model of WebsocketRelay._monitor_client_buffers (websocketrelay.py lines
310-328): the while-true loop sits inside a single try/except Exception, so
sweeps happen until the first in-loop exception, which is caught and logged,
after which the task exits without re-raising and no further sweep runs. -/
def monitorRun (o : RelayOptions) : List SweepEvent → List (List Nat) × MonitorEnd
| [] => ([], .stillRunning)
| .sweep cs :: rest =>
  let p := monitorRun o rest
  (sweepCloses o cs :: p.1, p.2)
| .crash :: _ => ([], .exitedCaught)

/-- Options with both monitor parameters positive, for the monitor
theorems. -/
def monitorOpts : RelayOptions :=
  { defaultRelayOptions with client_buffer_limit := 1024, client_check_interval := 1 }

/-- C9 counterexample: after an exception in one sweep iteration the monitor
has exited, so a later sweep does not occur: with the exception first, the
over-limit client 7 is never closed, although the same sweep alone would
schedule its close. This refutes the claim that sweeps still occur after a
per-iteration exception. -/
theorem c9_counterexample :
    monitorRun monitorOpts [.crash, .sweep [⟨7, true, true, 2048⟩]] = ([], .exitedCaught) ∧
    monitorRun monitorOpts [.sweep [⟨7, true, true, 2048⟩]] = ([[7]], .stillRunning) := by
  constructor
  · rfl
  · rfl

/-- C9 (amended): the buffer monitor runs only when both
client_check_interval and client_buffer_limit are positive; an unexpected
exception in a sweep iteration is caught (it does not propagate, the server
keeps running) but ends the monitor task, so no subsequent sweep occurs. -/
theorem c9_monitor_amended (o : RelayOptions) (s : RelayState) (post : List SweepEvent) :
    (s.relayTask ≠ .running → s.monitorTask ≠ .running →
      ((relay_start o s).monitorTask = .running ↔
        (0 < o.client_check_interval ∧ 0 < o.client_buffer_limit))) ∧
    (∀ pre, monitorRun o (pre ++ .crash :: post) = monitorRun o (pre ++ [.crash])) ∧
    (∀ pre, (monitorRun o (pre ++ .crash :: post)).2 = .exitedCaught) := by
  have hb : ∀ pre, monitorRun o (pre ++ SweepEvent.crash :: post) =
      monitorRun o (pre ++ [SweepEvent.crash]) := by
    intro pre
    induction pre with
    | nil => rfl
    | cons e t ih =>
      cases e with
      | sweep cs => simp [monitorRun, ih]
      | crash => rfl
  have hc : ∀ pre, (monitorRun o (pre ++ [SweepEvent.crash])).2 = MonitorEnd.exitedCaught := by
    intro pre
    induction pre with
    | nil => rfl
    | cons e t ih =>
      cases e with
      | sweep cs => simp [monitorRun, ih]
      | crash => rfl
  refine ⟨?_, hb, fun pre => by rw [hb pre]; exact hc pre⟩
  intro h1 h2
  unfold relay_start
  rw [if_neg (by simp [h1, h2])]
  by_cases hcfg : (0 < o.client_check_interval ∧ 0 < o.client_buffer_limit)
  · simp only [if_pos hcfg]
    simp [hcfg]
  · simp only [if_neg hcfg]
    simp [h2, hcfg]

/-- Witness for c9_monitor_amended: with both parameters positive the start
creates the monitor, and a crash makes later events irrelevant. -/
theorem c9_monitor_amended_witness :
    (initRelayState.relayTask ≠ TaskState.running) ∧
    ((relay_start monitorOpts initRelayState).monitorTask = .running ↔
      (0 < monitorOpts.client_check_interval ∧ 0 < monitorOpts.client_buffer_limit)) ∧
    monitorRun monitorOpts ([] ++ .crash :: [.sweep [⟨7, true, true, 2048⟩]]) =
      monitorRun monitorOpts ([] ++ [.crash]) :=
  ⟨by decide,
   (c9_monitor_amended monitorOpts initRelayState [.sweep [⟨7, true, true, 2048⟩]]).1
     (by decide) (by decide),
   (c9_monitor_amended monitorOpts initRelayState [.sweep [⟨7, true, true, 2048⟩]]).2.1 []⟩

/-- C2 (amended): the decoder applies its validation steps in order and
returns the corresponding typed error: empty input yields the empty error; a
non-empty unconsumed tail (the cap-hit signal) yields size_limit_exceeded
with no partial bytes escaping; unused data after the deflate stream yields
trailing_garbage; an unreached stream footer yields truncated; an empty
decompressed output yields the empty-message error; output that is not valid
JSON yields the invalid-json error; parsed output that is not an object
containing the key $schemaRef yields missing_schema_ref; otherwise the
canonical (key-sorted) JSON bytes are returned. -/
theorem c2_decoder_chain (d : Bytes → Nat → ZlibResult) (msg : Bytes) (limit : Nat) :
    (msg = [] → decode_msg d msg limit = .error .empty) ∧
    (msg ≠ [] → (d msg limit).unconsumed_tail ≠ [] →
      decode_msg d msg limit = .error .size_limit_exceeded) ∧
    (msg ≠ [] → (d msg limit).unconsumed_tail = [] → (d msg limit).unused_data ≠ [] →
      decode_msg d msg limit = .error .trailing_garbage) ∧
    (msg ≠ [] → (d msg limit).unconsumed_tail = [] → (d msg limit).unused_data = [] →
      (d msg limit).eof = false → decode_msg d msg limit = .error .truncated) ∧
    (msg ≠ [] → (d msg limit).unconsumed_tail = [] → (d msg limit).unused_data = [] →
      (d msg limit).eof = true → (d msg limit).output = [] →
      decode_msg d msg limit = .error .empty_message) ∧
    (msg ≠ [] → (d msg limit).unconsumed_tail = [] → (d msg limit).unused_data = [] →
      (d msg limit).eof = true → (d msg limit).output ≠ [] →
      loads (d msg limit).output = none →
      decode_msg d msg limit = .error .invalid_json) ∧
    (∀ v, msg ≠ [] → (d msg limit).unconsumed_tail = [] → (d msg limit).unused_data = [] →
      (d msg limit).eof = true → (d msg limit).output ≠ [] →
      loads (d msg limit).output = some v → isEnvelope v = false →
      decode_msg d msg limit = .error .missing_schema_ref) ∧
    (∀ v, msg ≠ [] → (d msg limit).unconsumed_tail = [] → (d msg limit).unused_data = [] →
      (d msg limit).eof = true → (d msg limit).output ≠ [] →
      loads (d msg limit).output = some v → isEnvelope v = true →
      decode_msg d msg limit = .ok (dumpJson (sortJson v))) := by
  refine ⟨?_, ?_, ?_, ?_, ?_, ?_, ?_, ?_⟩
  · intro h
    simp [decode_msg, h]
  · intro h1 h2
    simp [decode_msg, h1, h2]
  · intro h1 h2 h3
    simp [decode_msg, h1, h2, h3]
  · intro h1 h2 h3 h4
    simp [decode_msg, h1, h2, h3, h4]
  · intro h1 h2 h3 h4 h5
    simp [decode_msg, h1, h2, h3, h4, h5]
  · intro h1 h2 h3 h4 h5 h6
    simp [decode_msg, h1, h2, h3, h4, h5, h6]
  · intro v h1 h2 h3 h4 h5 h6 h7
    simp [decode_msg, h1, h2, h3, h4, h5, h6, h7]
  · intro v h1 h2 h3 h4 h5 h6 h7
    simp [decode_msg, h1, h2, h3, h4, h5, h6, h7]

/-- C2 counterexample: a complete zlib stream decompressing to the empty
byte string raises the empty-message error, and output that is not valid
JSON raises the invalid-json error; neither is the missing_schema_ref error
the claim predicts for output that does not parse as an object with
$schemaRef. -/
theorem c2_counterexample :
    decode_msg (zlibConst [] [] [] true) [120] 0 = .error .empty_message ∧
    decode_msg (zlibConst [123] [] [] true) [120] 0 = .error .invalid_json ∧
    DecodeError.empty_message ≠ DecodeError.missing_schema_ref ∧
    DecodeError.invalid_json ≠ DecodeError.missing_schema_ref :=
  ⟨rfl, rfl, by decide, by decide⟩

/-- Witness for c2_decoder_chain: the cap-hit error and a successful
canonicalizing decode at concrete inputs. -/
theorem c2_decoder_chain_witness :
    decode_msg (zlibConst [48] [49] [] false) [120] 0 = .error .size_limit_exceeded ∧
    decode_msg (zlibConst exampleEnvelopeBytes [] [] true) [120] 0 =
      .ok (dumpJson (sortJson exampleEnvelope)) :=
  ⟨(c2_decoder_chain (zlibConst [48] [49] [] false) [120] 0).2.1 (by decide) (by decide),
   (c2_decoder_chain (zlibConst exampleEnvelopeBytes [] [] true) [120] 0).2.2.2.2.2.2.2
     exampleEnvelope (by decide) rfl rfl rfl (by decide) rfl rfl⟩

theorem natDump_ne_nil (n : Nat) : natDump n ≠ [] := by
  unfold natDump
  split_ifs with h
  · simp
  · simp [Nat.digits_ne_nil_iff_ne_zero, h]

theorem intDump_ne_nil (n : Int) : intDump n ≠ [] := by
  unfold intDump
  split_ifs
  · simp
  · exact natDump_ne_nil _

theorem dumpJson_ne_nil (v : Json) : dumpJson v ≠ [] := by
  cases v with
  | null => simp [dumpJson]
  | bool b => cases b <;> simp [dumpJson]
  | num n => simpa [dumpJson] using intDump_ne_nil n
  | str s => simp [dumpJson]
  | arr xs => cases xs <;> simp [dumpJson]
  | obj fs => cases fs <;> simp [dumpJson]

/-- C10: any complete well-formed zlib stream whose decompressed output is
the empty byte string makes the decoder raise the empty-message error, an
error kind absent from the specification's DecodeError taxonomy;
consequently, whenever decode succeeds, its result is a non-empty byte
string. -/
theorem c10_empty_message (d : Bytes → Nat → ZlibResult) (msg : Bytes) (limit : Nat) :
    (msg ≠ [] → (d msg limit).output = [] → (d msg limit).unconsumed_tail = [] →
      (d msg limit).unused_data = [] → (d msg limit).eof = true →
      decode_msg d msg limit = .error .empty_message) ∧
    (DecodeError.empty_message ∉ specTaxonomy) ∧
    (∀ out, decode_msg d msg limit = .ok out → out ≠ []) := by
  refine ⟨?_, by decide, ?_⟩
  · intro h1 h2 h3 h4 h5
    simp [decode_msg, h1, h2, h3, h4, h5]
  · intro out h
    simp only [decode_msg] at h
    split_ifs at h
    split at h
    · exact absurd h (by simp)
    · rename_i data hdata
      split_ifs at h
      have : dumpJson (sortJson data) = out := by
        injection h
      rw [← this]
      exact dumpJson_ne_nil _

/-- Witness for c10_empty_message: a concrete empty-output stream raises the
empty-message error and a concrete successful decode is non-empty. -/
theorem c10_empty_message_witness :
    decode_msg (zlibConst [] [] [] true) [121] 0 = .error .empty_message ∧
    DecodeError.empty_message ∉ specTaxonomy ∧
    dumpJson (sortJson exampleEnvelope) ≠ [] :=
  ⟨(c10_empty_message (zlibConst [] [] [] true) [121] 0).1 (by decide) rfl rfl rfl rfl,
   (c10_empty_message (zlibConst [] [] [] true) [121] 0).2.1,
   (c10_empty_message (zlibConst exampleEnvelopeBytes [] [] true) [121] 0).2.2
     (dumpJson (sortJson exampleEnvelope)) rfl⟩

theorem json_induction (P : Json → Prop)
    (hnull : P .null) (hbool : ∀ b, P (.bool b)) (hnum : ∀ n, P (.num n))
    (hstr : ∀ s, P (.str s))
    (harr : ∀ xs, (∀ x ∈ xs, P x) → P (.arr xs))
    (hobj : ∀ fs, (∀ p ∈ fs, P p.2) → P (.obj fs)) : ∀ v, P v := by
  have H : ∀ n v, sizeOf v ≤ n → P v := by
    intro n
    induction n with
    | zero =>
      intro v hv
      cases v <;> simp at hv
    | succ n ih =>
      intro v hv
      cases v with
      | null => exact hnull
      | bool b => exact hbool b
      | num m => exact hnum m
      | str s => exact hstr s
      | arr xs =>
        refine harr xs ?_
        intro x hx
        refine ih x ?_
        have h1 := List.sizeOf_lt_of_mem hx
        simp at hv
        omega
      | obj fs =>
        refine hobj fs ?_
        intro p hp
        refine ih p.2 ?_
        have h1 := List.sizeOf_lt_of_mem hp
        have h2 : sizeOf p.2 < sizeOf p := by
          cases p
          simp
        simp at hv
        omega
  exact fun v => H (sizeOf v) v le_rfl

theorem keyLe_total (a b : Bytes) : keyLe a b = true ∨ keyLe b a = true := by
  induction a generalizing b with
  | nil => left; rfl
  | cons x xs ih =>
    cases b with
    | nil => right; rfl
    | cons y ys =>
      rcases Nat.lt_trichotomy x y with h | h | h
      · left
        simp [keyLe, h]
      · subst h
        rcases ih ys with h2 | h2
        · left
          simp [keyLe, h2]
        · right
          simp [keyLe, h2]
      · right
        simp [keyLe, h]

theorem keyLe_refl (a : Bytes) : keyLe a a = true := by
  induction a with
  | nil => rfl
  | cons x xs ih => simp [keyLe, ih]

theorem keyLe_antisymm (a b : Bytes) (h1 : keyLe a b = true) (h2 : keyLe b a = true) : a = b := by
  induction a generalizing b with
  | nil =>
    cases b with
    | nil => rfl
    | cons y ys => simp [keyLe] at h2
  | cons x xs ih =>
    cases b with
    | nil => simp [keyLe] at h1
    | cons y ys =>
      rcases Nat.lt_trichotomy x y with h | h | h
      · exfalso
        simp [keyLe, h, Nat.lt_asymm h] at h2
      · subst h
        simp [keyLe] at h1 h2
        rw [ih ys h1 h2]
      · exfalso
        simp [keyLe, h, Nat.lt_asymm h] at h1

theorem keyLe_trans (a b c : Bytes) (h1 : keyLe a b = true) (h2 : keyLe b c = true) :
    keyLe a c = true := by
  induction a generalizing b c with
  | nil => rfl
  | cons x xs ih =>
    cases b with
    | nil => simp [keyLe] at h1
    | cons y ys =>
      cases c with
      | nil => simp [keyLe] at h2
      | cons z zs =>
        rcases Nat.lt_trichotomy x y with hxy | hxy | hxy
        · rcases Nat.lt_trichotomy y z with hyz | hyz | hyz
          · simp [keyLe, Nat.lt_trans hxy hyz]
          · subst hyz
            simp [keyLe, hxy]
          · exfalso
            simp [keyLe, hyz, Nat.lt_asymm hyz] at h2
        · subst hxy
          rcases Nat.lt_trichotomy x z with hyz | hyz | hyz
          · simp [keyLe, hyz]
          · subst hyz
            simp [keyLe, Nat.lt_irrefl] at h1 h2 ⊢
            exact ih ys zs h1 h2
          · exfalso
            simp [keyLe, hyz, Nat.lt_asymm hyz] at h2
        · exfalso
          simp [keyLe, hxy, Nat.lt_asymm hxy] at h1

/-- Keys of an entry list are sorted (adjacent pairs in keyLe order). -/
def keysSorted {α : Type} : List (Bytes × α) → Bool
| [] => true
| [_] => true
| p :: q :: t => keyLe p.1 q.1 && keysSorted (q :: t)

theorem insField_nil {α : Type} (p : Bytes × α) : insField p [] = [p] := rfl

theorem insField_cons {α : Type} (p q : Bytes × α) (t : List (Bytes × α)) :
    insField p (q :: t) =
      if keyLe p.1 q.1 = true then p :: q :: t else q :: insField p t := rfl

theorem sortFields_cons {α : Type} (p : Bytes × α) (t : List (Bytes × α)) :
    sortFields (p :: t) = insField p (sortFields t) := rfl

theorem insField_perm {α : Type} (p : Bytes × α) (l : List (Bytes × α)) :
    (insField p l).Perm (p :: l) := by
  induction l with
  | nil => exact List.Perm.refl _
  | cons q t ih =>
    rw [insField_cons]
    split_ifs
    · exact List.Perm.refl _
    · exact (List.Perm.cons q ih).trans (List.Perm.swap p q t)

theorem sortFields_perm {α : Type} (l : List (Bytes × α)) : (sortFields l).Perm l := by
  induction l with
  | nil => exact List.Perm.refl _
  | cons p t ih =>
    exact (insField_perm p (sortFields t)).trans (List.Perm.cons p ih)

theorem keysSorted_tail {α : Type} (p : Bytes × α) (t : List (Bytes × α))
    (h : keysSorted (p :: t) = true) : keysSorted t = true := by
  cases t with
  | nil => rfl
  | cons q t2 =>
    simp [keysSorted] at h
    simp [keysSorted, h.2]

theorem keysSorted_cons {α : Type} (p q : Bytes × α) (t : List (Bytes × α)) :
    keysSorted (p :: q :: t) = true ↔ (keyLe p.1 q.1 = true ∧ keysSorted (q :: t) = true) := by
  simp [keysSorted]

theorem insField_sorted {α : Type} (p : Bytes × α) (l : List (Bytes × α))
    (h : keysSorted l = true) : keysSorted (insField p l) = true := by
  induction l with
  | nil => rfl
  | cons q t ih =>
    rw [insField_cons]
    split_ifs with h1
    · rw [keysSorted_cons]
      exact ⟨h1, h⟩
    · have hqp : keyLe q.1 p.1 = true := (keyLe_total p.1 q.1).resolve_left (by simp [h1])
      cases t with
      | nil =>
        rw [insField_nil, keysSorted_cons]
        exact ⟨hqp, rfl⟩
      | cons r t2 =>
        have hqr : keyLe q.1 r.1 = true := ((keysSorted_cons q r t2).mp h).1
        have ht : keysSorted (r :: t2) = true := ((keysSorted_cons q r t2).mp h).2
        have hins := ih ht
        rw [insField_cons]
        split_ifs with h2
        · rw [keysSorted_cons]
          refine ⟨hqp, ?_⟩
          rw [keysSorted_cons]
          exact ⟨h2, ht⟩
        · rw [keysSorted_cons]
          refine ⟨hqr, ?_⟩
          have heq : insField p (r :: t2) = r :: insField p t2 := by
            rw [insField_cons, if_neg h2]
          rw [← heq]
          exact hins

theorem sortFields_sorted {α : Type} (l : List (Bytes × α)) :
    keysSorted (sortFields l) = true := by
  induction l with
  | nil => rfl
  | cons p t ih => exact insField_sorted p (sortFields t) ih

theorem insField_of_le {α : Type} (p : Bytes × α) (l : List (Bytes × α))
    (h : keysSorted (p :: l) = true) : insField p l = p :: l := by
  cases l with
  | nil => rfl
  | cons q t =>
    rw [insField_cons, if_pos ((keysSorted_cons p q t).mp h).1]

theorem sortFields_of_sorted {α : Type} (l : List (Bytes × α))
    (h : keysSorted l = true) : sortFields l = l := by
  induction l with
  | nil => rfl
  | cons p t ih =>
    rw [sortFields_cons, ih (keysSorted_tail p t h), insField_of_le p t h]

theorem sortFields_idem {α : Type} (l : List (Bytes × α)) :
    sortFields (sortFields l) = sortFields l :=
  sortFields_of_sorted _ (sortFields_sorted l)

theorem insField_map {α β : Type} (g : α → β) (p : Bytes × α) (l : List (Bytes × α)) :
    (insField p l).map (fun q => (q.1, g q.2)) =
      insField (p.1, g p.2) (l.map (fun q => (q.1, g q.2))) := by
  induction l with
  | nil => rfl
  | cons q t ih =>
    rw [insField_cons]
    split_ifs with h1
    · rw [List.map_cons, List.map_cons, insField_cons, if_pos h1]
    · rw [List.map_cons, List.map_cons, insField_cons, if_neg h1, ih]

theorem sortFields_map {α β : Type} (g : α → β) (l : List (Bytes × α)) :
    (sortFields l).map (fun q => (q.1, g q.2)) =
      sortFields (l.map (fun q => (q.1, g q.2))) := by
  induction l with
  | nil => rfl
  | cons p t ih =>
    rw [sortFields_cons, insField_map, ih, List.map_cons, sortFields_cons]

theorem keysSorted_head_le {α : Type} (p : Bytes × α) (t : List (Bytes × α))
    (h : keysSorted (p :: t) = true) : ∀ r ∈ t, keyLe p.1 r.1 = true := by
  induction t generalizing p with
  | nil => intro r hr; cases hr
  | cons q t2 ih =>
    intro r hr
    have h1 : keyLe p.1 q.1 = true := ((keysSorted_cons p q t2).mp h).1
    have h2 : keysSorted (q :: t2) = true := ((keysSorted_cons p q t2).mp h).2
    rcases List.mem_cons.mp hr with hr2 | hr2
    · rw [hr2]
      exact h1
    · exact keyLe_trans p.1 q.1 r.1 h1 (ih q h2 r hr2)

theorem sorted_perm_nodup_eq {α : Type} (l1 l2 : List (Bytes × α)) (h : l1.Perm l2)
    (hs1 : keysSorted l1 = true) (hs2 : keysSorted l2 = true)
    (hn : (l1.map Prod.fst).Nodup) : l1 = l2 := by
  induction l1 generalizing l2 with
  | nil => exact (h.symm.eq_nil).symm
  | cons p t1 ih =>
    cases l2 with
    | nil => exact absurd h.symm (by simp)
    | cons q t2 =>
      have hpq : p = q := by
        have hpmem : p ∈ q :: t2 := h.mem_iff.mp (List.mem_cons_self p t1)
        have hqmem : q ∈ p :: t1 := h.mem_iff.mpr (List.mem_cons_self q t2)
        rcases List.mem_cons.mp hpmem with he | hp2
        · exact he
        · rcases List.mem_cons.mp hqmem with he | hq1
          · exact he.symm
          · exfalso
            have hle1 : keyLe p.1 q.1 = true := keysSorted_head_le p t1 hs1 q hq1
            have hle2 : keyLe q.1 p.1 = true := keysSorted_head_le q t2 hs2 p hp2
            have hk : p.1 = q.1 := keyLe_antisymm p.1 q.1 hle1 hle2
            have hin : p.1 ∈ t1.map Prod.fst := by
              rw [hk]
              exact List.mem_map_of_mem Prod.fst hq1
            have hnotin : p.1 ∉ t1.map Prod.fst := by
              rw [List.map_cons] at hn
              exact (List.nodup_cons.mp hn).1
            exact hnotin hin
      subst hpq
      have htp : t1.Perm t2 := h.cons_inv
      have heq := ih t2 htp (keysSorted_tail p t1 hs1) (keysSorted_tail p t2 hs2)
        (by rw [List.map_cons] at hn; exact (List.nodup_cons.mp hn).2)
      rw [heq]

theorem sortList_eq_map (xs : List Json) : sortList xs = xs.map sortJson := by
  induction xs with
  | nil => rfl
  | cons x t ih => simp [sortList, ih]

theorem sortVals_eq_map (fs : List (Bytes × Json)) :
    sortVals fs = fs.map (fun p => (p.1, sortJson p.2)) := by
  induction fs with
  | nil => rfl
  | cons p t ih => simp [sortVals, ih]

theorem sortJson_idem : ∀ v, sortJson (sortJson v) = sortJson v := by
  refine json_induction _ rfl (fun b => rfl) (fun n => rfl) (fun s => rfl) ?_ ?_
  · intro xs ih
    show Json.arr (sortList (sortList xs)) = Json.arr (sortList xs)
    rw [sortList_eq_map, sortList_eq_map, List.map_map]
    congr 1
    exact List.map_congr_left (fun x hx => ih x hx)
  · intro fs ih
    show Json.obj (sortFields (sortVals (sortFields (sortVals fs)))) =
      Json.obj (sortFields (sortVals fs))
    congr 1
    rw [sortVals_eq_map (sortFields (sortVals fs)), sortFields_map sortJson (sortVals fs),
      sortFields_idem, sortVals_eq_map fs, List.map_map]
    congr 1
    refine List.map_congr_left ?_
    intro p hp
    show (p.1, sortJson (sortJson p.2)) = (p.1, sortJson p.2)
    rw [ih p hp]

mutual

/-- Are object keys sorted at every nesting depth? -/
def sortedDeep : Json → Bool
| .null => true
| .bool _ => true
| .num _ => true
| .str _ => true
| .arr xs => sortedDeepList xs
| .obj fs => keysSorted fs && sortedDeepFields fs

/-- sortedDeep for every array element. -/
def sortedDeepList : List Json → Bool
| [] => true
| x :: xs => sortedDeep x && sortedDeepList xs

/-- sortedDeep for every member value. -/
def sortedDeepFields : List (Bytes × Json) → Bool
| [] => true
| p :: t => sortedDeep p.2 && sortedDeepFields t

end

theorem sortedDeepList_iff (xs : List Json) :
    sortedDeepList xs = true ↔ ∀ x ∈ xs, sortedDeep x = true := by
  induction xs with
  | nil => simp [sortedDeepList]
  | cons x t ih => simp [sortedDeepList, ih]

theorem sortedDeepFields_iff (fs : List (Bytes × Json)) :
    sortedDeepFields fs = true ↔ ∀ p ∈ fs, sortedDeep p.2 = true := by
  induction fs with
  | nil => simp [sortedDeepFields]
  | cons p t ih => simp [sortedDeepFields, ih]

theorem sortedDeep_sortJson : ∀ v, sortedDeep (sortJson v) = true := by
  refine json_induction _ rfl (fun b => rfl) (fun n => rfl) (fun s => rfl) ?_ ?_
  · intro xs ih
    show sortedDeepList (sortList xs) = true
    rw [sortedDeepList_iff, sortList_eq_map]
    intro x hx
    obtain ⟨y, hy, rfl⟩ := List.mem_map.mp hx
    exact ih y hy
  · intro fs ih
    show (keysSorted (sortFields (sortVals fs)) && sortedDeepFields (sortFields (sortVals fs))) = true
    rw [Bool.and_eq_true]
    refine ⟨sortFields_sorted _, ?_⟩
    rw [sortedDeepFields_iff]
    intro p hp
    have hp2 : p ∈ sortVals fs := (sortFields_perm (sortVals fs)).mem_iff.mp hp
    rw [sortVals_eq_map] at hp2
    obtain ⟨q, hq, rfl⟩ := List.mem_map.mp hp2
    exact ih q hq

/-- Two JSON values are identical up to object key ordering: equal leaves,
pointwise-equivalent arrays, and objects whose member lists (with distinct
keys) match up to a permutation, with equivalent values at equal keys. -/
inductive JEquiv : Json → Json → Prop where
| null : JEquiv .null .null
| bool (b : Bool) : JEquiv (.bool b) (.bool b)
| num (n : Int) : JEquiv (.num n) (.num n)
| str (s : Bytes) : JEquiv (.str s) (.str s)
| arr (xs ys : List Json) : List.Forall₂ JEquiv xs ys → JEquiv (.arr xs) (.arr ys)
| obj (fs fs2 gs : List (Bytes × Json)) :
    (fs.map Prod.fst).Nodup →
    fs.map Prod.fst = fs2.map Prod.fst →
    List.Forall₂ JEquiv (fs.map Prod.snd) (fs2.map Prod.snd) →
    fs2.Perm gs →
    JEquiv (.obj fs) (.obj gs)

theorem pairlist_ext {α β : Type} (l1 l2 : List (α × β)) (h1 : l1.map Prod.fst = l2.map Prod.fst)
    (h2 : l1.map Prod.snd = l2.map Prod.snd) : l1 = l2 := by
  induction l1 generalizing l2 with
  | nil =>
    cases l2 with
    | nil => rfl
    | cons q t => simp at h1
  | cons p t ih =>
    cases l2 with
    | nil => simp at h1
    | cons q t2 =>
      simp at h1 h2
      rw [ih t2 h1.2 h2.2]
      congr 1
      cases p
      cases q
      simp at h1 h2 ⊢
      exact ⟨h1.1, h2.1⟩

theorem perm_any {α : Type} (f : α → Bool) {l1 l2 : List α} (h : l1.Perm l2) :
    l1.any f = l2.any f := by
  induction h with
  | nil => rfl
  | cons x h ih => simp [List.any_cons, ih]
  | swap x y l => simp [List.any_cons, Bool.or_left_comm]
  | trans h1 h2 ih1 ih2 => rw [ih1, ih2]

theorem any_fst {β : Type} (k : Bytes) (l : List (Bytes × β)) :
    l.any (fun p => p.1 == k) = (l.map Prod.fst).any (fun x => x == k) := by
  induction l with
  | nil => rfl
  | cons p t ih => simp [List.any_cons, ih]

theorem forall2_dump_sort (xs ys : List Json)
    (hf : List.Forall₂ JEquiv xs ys)
    (ih : ∀ x ∈ xs, ∀ w, JEquiv x w → dumpJson (sortJson x) = dumpJson (sortJson w)) :
    xs.map (fun x => dumpJson (sortJson x)) = ys.map (fun x => dumpJson (sortJson x)) := by
  induction hf with
  | nil => rfl
  | cons hxy hrest ihf =>
    rename_i a b as bs
    simp only [List.map_cons]
    rw [ih a (List.mem_cons_self a as) b hxy]
    rw [ihf (fun x hx => ih x (List.mem_cons_of_mem a hx))]

theorem dumpElems_congr (xs ys : List Json) (h : xs.map dumpJson = ys.map dumpJson) :
    dumpElems xs = dumpElems ys := by
  induction xs generalizing ys with
  | nil =>
    cases ys with
    | nil => rfl
    | cons y t => simp at h
  | cons x t ih =>
    cases ys with
    | nil => simp at h
    | cons y t2 =>
      simp at h
      simp [dumpElems, h.1, ih t2 h.2]

theorem dumpArr_congr (xs ys : List Json) (h : xs.map dumpJson = ys.map dumpJson) :
    dumpJson (.arr xs) = dumpJson (.arr ys) := by
  cases xs with
  | nil =>
    cases ys with
    | nil => rfl
    | cons y t => simp at h
  | cons x t =>
    cases ys with
    | nil => simp at h
    | cons y t2 =>
      simp at h
      simp [dumpJson, h.1, dumpElems_congr t t2 h.2]

theorem dumpField_congr (p q : Bytes × Json) (hk : p.1 = q.1) (hv : dumpJson p.2 = dumpJson q.2) :
    dumpField p = dumpField q := by
  cases p
  cases q
  simp at hk hv
  simp [dumpField, hk, hv]

theorem dumpFields_congr (l1 l2 : List (Bytes × Json))
    (h : l1.map (fun p => (p.1, dumpJson p.2)) = l2.map (fun p => (p.1, dumpJson p.2))) :
    dumpFields l1 = dumpFields l2 := by
  induction l1 generalizing l2 with
  | nil =>
    cases l2 with
    | nil => rfl
    | cons q t => simp at h
  | cons p t ih =>
    cases l2 with
    | nil => simp at h
    | cons q t2 =>
      simp at h
      simp [dumpFields, dumpField_congr p q h.1.1 h.1.2, ih t2 h.2]

theorem dumpObj_congr (l1 l2 : List (Bytes × Json))
    (h : l1.map (fun p => (p.1, dumpJson p.2)) = l2.map (fun p => (p.1, dumpJson p.2))) :
    dumpJson (.obj l1) = dumpJson (.obj l2) := by
  cases l1 with
  | nil =>
    cases l2 with
    | nil => rfl
    | cons q t => simp at h
  | cons p t =>
    cases l2 with
    | nil => simp at h
    | cons q t2 =>
      simp at h
      simp [dumpJson, dumpField_congr p q h.1.1 h.1.2, dumpFields_congr t t2 h.2]

theorem jequiv_dump_sort : ∀ v, ∀ w, JEquiv v w →
    dumpJson (sortJson v) = dumpJson (sortJson w) := by
  refine json_induction
    (fun v => ∀ w, JEquiv v w → dumpJson (sortJson v) = dumpJson (sortJson w))
    ?_ ?_ ?_ ?_ ?_ ?_
  · intro w h
    cases h
    rfl
  · intro b w h
    cases h
    rfl
  · intro n w h
    cases h
    rfl
  · intro s w h
    cases h
    rfl
  · intro xs ih w h
    cases h with
    | arr xs ys hf =>
      show dumpJson (.arr (sortList xs)) = dumpJson (.arr (sortList ys))
      apply dumpArr_congr
      rw [sortList_eq_map, sortList_eq_map, List.map_map, List.map_map]
      exact forall2_dump_sort xs ys hf ih
  · intro fs ih w h
    cases h with
    | obj fs fs2 gs hnd hkeys hvals hperm =>
      show dumpJson (.obj (sortFields (sortVals fs))) = dumpJson (.obj (sortFields (sortVals gs)))
      apply dumpObj_congr
      rw [sortFields_map dumpJson (sortVals fs), sortFields_map dumpJson (sortVals gs)]
      have hA : (sortVals fs).map (fun q => (q.1, dumpJson q.2)) =
          fs.map (fun p => (p.1, dumpJson (sortJson p.2))) := by
        rw [sortVals_eq_map, List.map_map]
        rfl
      have hB : (sortVals gs).map (fun q => (q.1, dumpJson q.2)) =
          gs.map (fun p => (p.1, dumpJson (sortJson p.2))) := by
        rw [sortVals_eq_map, List.map_map]
        rfl
      rw [hA, hB]
      have claim1 : fs.map (fun p => (p.1, dumpJson (sortJson p.2))) =
          fs2.map (fun p => (p.1, dumpJson (sortJson p.2))) := by
        apply pairlist_ext
        · rw [List.map_map, List.map_map]
          exact hkeys
        · rw [List.map_map, List.map_map]
          have hmem : ∀ x ∈ fs.map Prod.snd, ∀ w2, JEquiv x w2 →
              dumpJson (sortJson x) = dumpJson (sortJson w2) := by
            intro x hx
            obtain ⟨p, hp, rfl⟩ := List.mem_map.mp hx
            exact ih p hp
          have h2 := forall2_dump_sort (fs.map Prod.snd) (fs2.map Prod.snd) hvals hmem
          rw [List.map_map, List.map_map] at h2
          exact h2
      rw [claim1]
      have hpermF : (fs2.map (fun p => (p.1, dumpJson (sortJson p.2)))).Perm
          (gs.map (fun p => (p.1, dumpJson (sortJson p.2)))) := hperm.map _
      apply sorted_perm_nodup_eq
      · exact ((sortFields_perm _).trans hpermF).trans (sortFields_perm _).symm
      · exact sortFields_sorted _
      · exact sortFields_sorted _
      · have hnd2 : (fs2.map Prod.fst).Nodup := by
          rw [← hkeys]
          exact hnd
        have hkeq : ((fs2.map (fun p => (p.1, dumpJson (sortJson p.2)))).map Prod.fst) =
            fs2.map Prod.fst := by
          rw [List.map_map]
          rfl
        have hpk : ((sortFields (fs2.map (fun p => (p.1, dumpJson (sortJson p.2))))).map
            Prod.fst).Perm (fs2.map Prod.fst) := by
          rw [← hkeq]
          exact (sortFields_perm _).map Prod.fst
        exact hpk.symm.nodup hnd2

theorem jequiv_isEnvelope (v w : Json) (h : JEquiv v w) : isEnvelope v = isEnvelope w := by
  cases h with
  | null => rfl
  | bool b => rfl
  | num n => rfl
  | str s => rfl
  | arr xs ys hf => rfl
  | obj fs fs2 gs hnd hkeys hvals hperm =>
    show fs.any (fun p => p.1 == schemaRefKey) = gs.any (fun p => p.1 == schemaRefKey)
    rw [any_fst, any_fst, hkeys, ← any_fst, ← any_fst]
    exact perm_any _ hperm

theorem forall2_refl_jequiv (xs : List Json) (ih : ∀ x ∈ xs, JEquiv x x) :
    List.Forall₂ JEquiv xs xs := by
  induction xs with
  | nil => exact List.Forall₂.nil
  | cons x t iht =>
    exact List.Forall₂.cons (ih x (List.mem_cons_self x t))
      (iht (fun y hy => ih y (List.mem_cons_of_mem x hy)))

theorem hexDig_isHex (x : Nat) (h : x < 16) : isHex (hexDig x) = true := by
  unfold hexDig isHex
  split_ifs with h1 <;>
    simp only [Bool.or_eq_true, Bool.and_eq_true, decide_eq_true_eq] <;> omega

theorem hexVal_hexDig (x : Nat) (h : x < 16) : hexVal (hexDig x) = x := by
  unfold hexDig hexVal
  split_ifs <;> omega

/-- Does the input not start with a decimal digit? (Numbers are the only
token without a self-delimiting end.) -/
def headNotDigit : Bytes → Bool
| [] => true
| c :: _ => !(isDigit c)

theorem parseStrBody_escape (s : Bytes) : ∀ rest,
    parseStrBody (escStr s ++ 34 :: rest) = some (s, rest) := by
  induction s with
  | nil =>
    intro rest
    show parseStrBody (34 :: rest) = some ([], rest)
    rw [parseStrBody.eq_def]
    rfl
  | cons c t ih =>
    intro rest
    show parseStrBody ((escChar c ++ escStr t) ++ 34 :: rest) = some (c :: t, rest)
    by_cases h1 : c = 34
    · subst h1
      show parseStrBody (92 :: 34 :: (escStr t ++ 34 :: rest)) = some (34 :: t, rest)
      rw [parseStrBody.eq_def]
      simp [ih rest]
    · by_cases h2 : c = 92
      · subst h2
        show parseStrBody (92 :: 92 :: (escStr t ++ 34 :: rest)) = some (92 :: t, rest)
        rw [parseStrBody.eq_def]
        simp [ih rest]
      · by_cases h3 : c < 32
        · have hv1 : hexVal (hexDig (c / 16)) = c / 16 := hexVal_hexDig _ (by omega)
          have hv2 : hexVal (hexDig (c % 16)) = c % 16 := hexVal_hexDig _ (by omega)
          have hh1 : isHex (hexDig (c / 16)) = true := hexDig_isHex _ (by omega)
          have hh2 : isHex (hexDig (c % 16)) = true := hexDig_isHex _ (by omega)
          have hesc : escChar c = [92, 117, 48, 48, hexDig (c / 16), hexDig (c % 16)] := by
            unfold escChar
            rw [if_neg h1, if_neg h2, if_pos h3]
          rw [hesc]
          show parseStrBody (92 :: 117 :: 48 :: 48 :: hexDig (c / 16) :: hexDig (c % 16) ::
            (escStr t ++ 34 :: rest)) = some (c :: t, rest)
          have h48x : isHex 48 = true := rfl
          have h48v : hexVal 48 = 0 := rfl
          rw [parseStrBody.eq_def]
          simp [hh1, hh2, hv1, hv2, h48x, h48v, ih rest]
          omega
        · have hesc : escChar c = [c] := by
            unfold escChar
            rw [if_neg h1, if_neg h2, if_neg h3]
          rw [hesc]
          show parseStrBody (c :: (escStr t ++ 34 :: rest)) = some (c :: t, rest)
          rw [parseStrBody.eq_def]
          simp [h1, h2, ih rest]

theorem natDump_digits (n : Nat) : ∀ d ∈ natDump n, isDigit d = true := by
  unfold natDump
  split_ifs with h
  · intro d hd
    simp at hd
    subst hd
    rfl
  · intro d hd
    simp at hd
    obtain ⟨x, hx, rfl⟩ := hd
    have hlt : x < 10 := Nat.digits_lt_base (by omega) hx
    simp [isDigit]
    omega

theorem takeDigits_append (pre rest : Bytes) (hd : ∀ d ∈ pre, isDigit d = true)
    (hr : headNotDigit rest = true) : takeDigits (pre ++ rest) = (pre, rest) := by
  induction pre with
  | nil =>
    cases rest with
    | nil => rfl
    | cons c r =>
      simp [headNotDigit] at hr
      rw [List.nil_append, takeDigits.eq_def]
      simp [hr]
  | cons c t ih =>
    have hc : isDigit c = true := hd c (List.mem_cons_self c t)
    rw [List.cons_append, takeDigits.eq_def]
    simp [hc, ih (fun d hdm => hd d (List.mem_cons_of_mem c hdm))]

theorem foldl_digits_map (l : List Nat) : ∀ a : Nat,
    (l.map (fun d => d + 48)).foldl (fun a c => 10 * a + (c - 48)) a =
      l.foldl (fun a d => 10 * a + d) a := by
  induction l with
  | nil => intro a; rfl
  | cons d t ih =>
    intro a
    simp only [List.map_cons, List.foldl_cons]
    rw [ih]
    congr 1

theorem foldl_rev_ofDigits (l : List Nat) : ∀ acc : Nat,
    l.reverse.foldl (fun a d => 10 * a + d) acc = acc * 10 ^ l.length + Nat.ofDigits 10 l := by
  induction l with
  | nil => intro acc; simp
  | cons d t ih =>
    intro acc
    simp only [List.reverse_cons, List.foldl_append, List.foldl_cons, List.foldl_nil, ih,
      Nat.ofDigits_cons, List.length_cons, Nat.pow_succ]
    ring

theorem digitsVal_natDump (n : Nat) : digitsVal (natDump n) = n := by
  unfold natDump
  split_ifs with h
  · subst h
    rfl
  · unfold digitsVal
    rw [foldl_digits_map]
    have h2 := foldl_rev_ofDigits (Nat.digits 10 n) 0
    simp only [Nat.zero_mul, Nat.zero_add] at h2
    rw [h2, Nat.ofDigits_digits]

theorem intDump_head (n : Int) : ∃ c t, intDump n = c :: t ∧ (c = 45 ∨ isDigit c = true) := by
  unfold intDump
  split_ifs with h
  · exact ⟨45, natDump n.natAbs, rfl, Or.inl rfl⟩
  · have hne := natDump_ne_nil n.natAbs
    cases hnd : natDump n.natAbs with
    | nil => exact absurd hnd hne
    | cons c t =>
      refine ⟨c, t, rfl, Or.inr ?_⟩
      exact natDump_digits n.natAbs c (by rw [hnd]; exact List.mem_cons_self c t)

theorem dump_head (v : Json) : ∃ c t, dumpJson v = c :: t ∧
    (c = 110 ∨ c = 116 ∨ c = 102 ∨ c = 34 ∨ c = 91 ∨ c = 123 ∨ c = 45 ∨ isDigit c = true) := by
  cases v with
  | null => exact ⟨110, _, rfl, by simp⟩
  | bool b =>
    cases b with
    | true => exact ⟨116, _, rfl, by simp⟩
    | false => exact ⟨102, _, rfl, by simp⟩
  | num n =>
    obtain ⟨c, t, hct, hc⟩ := intDump_head n
    exact ⟨c, t, hct, by tauto⟩
  | str s => exact ⟨34, _, rfl, by simp⟩
  | arr xs =>
    cases xs with
    | nil => exact ⟨91, _, rfl, by simp⟩
    | cons x t => exact ⟨91, _, rfl, by simp⟩
  | obj fs =>
    cases fs with
    | nil => exact ⟨123, _, rfl, by simp⟩
    | cons f t => exact ⟨123, _, rfl, by simp⟩

theorem parseNum_cons (c : Nat) (r : Bytes) :
    parseNum (c :: r) =
      if c = 45 then
        (if (takeDigits r).1 = [] then none
         else some (.num (-(digitsVal (takeDigits r).1 : Int)), (takeDigits r).2))
      else
        (if (takeDigits (c :: r)).1 = [] then none
         else some (.num ((digitsVal (takeDigits (c :: r)).1 : Int)), (takeDigits (c :: r)).2)) := by
  rw [parseNum.eq_def]

theorem parseNum_intDump (n : Int) (rest : Bytes) (hr : headNotDigit rest = true) :
    parseNum (intDump n ++ rest) = some (.num n, rest) := by
  unfold intDump
  split_ifs with h
  · rw [List.cons_append, parseNum_cons, if_pos rfl]
    rw [takeDigits_append _ _ (natDump_digits _) hr]
    rw [if_neg (by simpa using natDump_ne_nil n.natAbs)]
    rw [digitsVal_natDump]
    have hval : -((n.natAbs : Int)) = n := by omega
    rw [hval]
  · have hne := natDump_ne_nil n.natAbs
    cases hnd : natDump n.natAbs with
    | nil => exact absurd hnd hne
    | cons c t =>
      have hdig : isDigit c = true :=
        natDump_digits n.natAbs c (by rw [hnd]; exact List.mem_cons_self c t)
      have hc45 : ¬ c = 45 := by
        simp [isDigit] at hdig
        omega
      rw [List.cons_append, parseNum_cons, if_neg hc45]
      have harg : c :: (t ++ rest) = natDump n.natAbs ++ rest := by
        rw [hnd, List.cons_append]
      rw [harg, takeDigits_append _ _ (natDump_digits _) hr]
      rw [if_neg (by simpa using natDump_ne_nil n.natAbs)]
      rw [digitsVal_natDump]
      have hval : ((n.natAbs : Int)) = n := by omega
      rw [hval]

mutual

/-- Fuel consumed by the parser on a serialized value: one unit per parseJ
call plus one per list step. -/
def jFuel : Json → Nat
| .null => 1
| .bool _ => 1
| .num _ => 1
| .str _ => 1
| .arr xs => 1 + jFuelList xs
| .obj fs => 1 + jFuelFields fs

/-- Fuel for the elements of an array. -/
def jFuelList : List Json → Nat
| [] => 0
| x :: xs => 1 + jFuel x + jFuelList xs

/-- Fuel for the members of an object. -/
def jFuelFields : List (Bytes × Json) → Nat
| [] => 0
| p :: t => 1 + jFuel p.2 + jFuelFields t

end

theorem jFuel_pos (v : Json) : 1 ≤ jFuel v := by
  cases v <;> simp [jFuel]

theorem parseJ_zero (s : Bytes) : parseJ 0 s = none := by
  rw [parseJ.eq_def]

theorem parseJ_succ_cons (f : Nat) (c : Nat) (r : Bytes) :
    parseJ (Nat.succ f) (c :: r) =
      (if c = 110 then
        match r with
        | 117 :: 108 :: 108 :: t => some (.null, t)
        | _ => none
      else if c = 116 then
        match r with
        | 114 :: 117 :: 101 :: t => some (.bool true, t)
        | _ => none
      else if c = 102 then
        match r with
        | 97 :: 108 :: 115 :: 101 :: t => some (.bool false, t)
        | _ => none
      else if c = 34 then (parseStrBody r).map (fun p => (.str p.1, p.2))
      else if c = 91 then
        match r with
        | [] => none
        | d :: t =>
          if d = 93 then some (.arr [], t)
          else (parseElems f (d :: t)).map (fun p => (.arr p.1, p.2))
      else if c = 123 then
        match r with
        | [] => none
        | d :: t =>
          if d = 125 then some (.obj [], t)
          else (parseMembers f (d :: t)).map (fun p => (.obj p.1, p.2))
      else parseNum (c :: r)) := by
  rw [parseJ.eq_def]
  rfl

theorem parseElems_succ (f : Nat) (s : Bytes) :
    parseElems (Nat.succ f) s =
      (match parseJ f s with
      | none => none
      | some (v, r) =>
        match r with
        | [] => none
        | d :: t =>
          if d = 44 then (parseElems f t).map (fun p => (v :: p.1, p.2))
          else if d = 93 then some ([v], t)
          else none) := by
  rw [parseElems.eq_def]

theorem parseMembers_succ (f : Nat) (s : Bytes) :
    parseMembers (Nat.succ f) s =
      (match s with
      | [] => none
      | c :: r =>
        if c = 34 then
          match parseStrBody r with
          | none => none
          | some (k, r1) =>
            match r1 with
            | [] => none
            | d :: t =>
              if d = 58 then
                match parseJ f t with
                | none => none
                | some (v, r2) =>
                  match r2 with
                  | [] => none
                  | e :: u =>
                    if e = 44 then (parseMembers f u).map (fun p => ((k, v) :: p.1, p.2))
                    else if e = 125 then some ([(k, v)], u)
                    else none
              else none
        else none) := by
  rw [parseMembers.eq_def]

theorem headNotDigit_dumpElems (xs : List Json) (rest : Bytes) :
    headNotDigit (dumpElems xs ++ 93 :: rest) = true := by
  cases xs <;> rfl

theorem headNotDigit_dumpFields (fs : List (Bytes × Json)) (rest : Bytes) :
    headNotDigit (dumpFields fs ++ 125 :: rest) = true := by
  cases fs <;> rfl

theorem parseJ_num_head (f : Nat) (c : Nat) (r : Bytes) (h : c = 45 ∨ isDigit c = true) :
    parseJ (Nat.succ f) (c :: r) = parseNum (c :: r) := by
  have hc : c = 45 ∨ (48 ≤ c ∧ c ≤ 57) := by
    rcases h with h | h
    · exact Or.inl h
    · simp [isDigit] at h
      exact Or.inr h
  rw [parseJ_succ_cons]
  rw [if_neg (by omega), if_neg (by omega), if_neg (by omega), if_neg (by omega),
    if_neg (by omega), if_neg (by omega)]

theorem parseJ_succ_91 (f : Nat) (d : Nat) (t : Bytes) (hd : ¬ d = 93) :
    parseJ (Nat.succ f) (91 :: d :: t) =
      (parseElems f (d :: t)).map (fun p => (.arr p.1, p.2)) := by
  rw [parseJ_succ_cons]
  simp [hd]

theorem parseJ_succ_123 (f : Nat) (d : Nat) (t : Bytes) (hd : ¬ d = 125) :
    parseJ (Nat.succ f) (123 :: d :: t) =
      (parseMembers f (d :: t)).map (fun p => (.obj p.1, p.2)) := by
  rw [parseJ_succ_cons]
  simp [hd]

theorem dump_head_ne (x : Json) (b : Nat) (hb : 93 ≤ b) (hb2 : b ≠ 123) (hb3 : b ≠ 110)
    (hb4 : b ≠ 116) (hb5 : b ≠ 102) : ∃ c t, dumpJson x = c :: t ∧ ¬ c = b := by
  obtain ⟨c, t, hct, hcls⟩ := dump_head x
  refine ⟨c, t, hct, ?_⟩
  rcases hcls with h|h|h|h|h|h|h|h
  all_goals first
  | omega
  | (simp [isDigit] at h; omega)

theorem parse_dump_triple : ∀ f : Nat,
    (∀ v rest, jFuel v ≤ f → headNotDigit rest = true →
      parseJ f (dumpJson v ++ rest) = some (v, rest)) ∧
    (∀ x xs rest, jFuel x + jFuelList xs + 1 ≤ f →
      parseElems f (dumpJson x ++ (dumpElems xs ++ 93 :: rest)) = some (x :: xs, rest)) ∧
    (∀ k v fs rest, jFuel v + jFuelFields fs + 1 ≤ f →
      parseMembers f (34 :: (escStr k ++ 34 :: 58 :: (dumpJson v ++ (dumpFields fs ++ 125 :: rest))))
        = some ((k, v) :: fs, rest)) := by
  intro f
  induction f with
  | zero =>
    refine ⟨?_, ?_, ?_⟩
    · intro v rest hf _
      exact absurd hf (by have := jFuel_pos v; omega)
    · intro x xs rest hf
      exact absurd hf (by have := jFuel_pos x; omega)
    · intro k v fs rest hf
      exact absurd hf (by have := jFuel_pos v; omega)
  | succ f ih =>
    obtain ⟨ihJ, ihE, ihM⟩ := ih
    refine ⟨?_, ?_, ?_⟩
    · intro v rest hf hrest
      cases v with
      | null =>
        show parseJ (Nat.succ f) (110 :: 117 :: 108 :: 108 :: rest) = _
        rw [parseJ_succ_cons]
        rfl
      | bool b =>
        cases b with
        | true =>
          show parseJ (Nat.succ f) (116 :: 114 :: 117 :: 101 :: rest) = _
          rw [parseJ_succ_cons]
          rfl
        | false =>
          show parseJ (Nat.succ f) (102 :: 97 :: 108 :: 115 :: 101 :: rest) = _
          rw [parseJ_succ_cons]
          rfl
      | num n =>
        obtain ⟨c, t, hct, hc⟩ := intDump_head n
        have harg : dumpJson (.num n) ++ rest = c :: (t ++ rest) := by
          show intDump n ++ rest = _
          rw [hct, List.cons_append]
        rw [harg, parseJ_num_head f c _ hc]
        have harg2 : c :: (t ++ rest) = intDump n ++ rest := by
          rw [hct, List.cons_append]
        rw [harg2]
        exact parseNum_intDump n rest hrest
      | str s =>
        have harg : dumpJson (.str s) ++ rest = 34 :: (escStr s ++ 34 :: rest) := by
          show (34 :: (escStr s ++ [34])) ++ rest = _
          simp [List.append_assoc]
        rw [harg, parseJ_succ_cons]
        simp [parseStrBody_escape s rest]
      | arr xs =>
        cases xs with
        | nil =>
          show parseJ (Nat.succ f) (91 :: 93 :: rest) = _
          rw [parseJ_succ_cons]
          rfl
        | cons x xs2 =>
          have hfuel : jFuel x + jFuelList xs2 + 1 ≤ f := by
            simp [jFuel, jFuelList] at hf
            omega
          obtain ⟨c2, t2, hct, h93⟩ := dump_head_ne x 93 (by omega) (by omega) (by omega)
            (by omega) (by omega)
          have harg : dumpJson (.arr (x :: xs2)) ++ rest =
              91 :: c2 :: (t2 ++ (dumpElems xs2 ++ 93 :: rest)) := by
            show (91 :: (dumpJson x ++ dumpElems xs2) ++ [93]) ++ rest = _
            rw [hct]
            simp [List.append_assoc]
          rw [harg, parseJ_succ_91 f c2 _ h93]
          have harg2 : c2 :: (t2 ++ (dumpElems xs2 ++ 93 :: rest)) =
              dumpJson x ++ (dumpElems xs2 ++ 93 :: rest) := by
            rw [hct, List.cons_append]
          rw [harg2, ihE x xs2 rest hfuel]
          rfl
      | obj fs =>
        cases fs with
        | nil =>
          show parseJ (Nat.succ f) (123 :: 125 :: rest) = _
          rw [parseJ_succ_cons]
          rfl
        | cons p fs2 =>
          obtain ⟨k2, v2⟩ := p
          have hfuel : jFuel v2 + jFuelFields fs2 + 1 ≤ f := by
            simp [jFuel, jFuelFields] at hf
            omega
          have harg : dumpJson (.obj ((k2, v2) :: fs2)) ++ rest =
              123 :: 34 :: (escStr k2 ++ 34 :: 58 ::
                (dumpJson v2 ++ (dumpFields fs2 ++ 125 :: rest))) := by
            show (123 :: (dumpField (k2, v2) ++ dumpFields fs2) ++ [125]) ++ rest = _
            simp [dumpField, List.append_assoc]
          rw [harg, parseJ_succ_123 f 34 _ (by omega)]
          rw [ihM k2 v2 fs2 rest hfuel]
          rfl
    · intro x xs rest hfuel
      rw [parseElems_succ]
      have hJ : parseJ f (dumpJson x ++ (dumpElems xs ++ 93 :: rest)) =
          some (x, dumpElems xs ++ 93 :: rest) :=
        ihJ x _ (by omega) (headNotDigit_dumpElems xs rest)
      rw [hJ]
      cases xs with
      | nil =>
        simp [dumpElems]
      | cons y ys =>
        have hfuel2 : jFuel y + jFuelList ys + 1 ≤ f := by
          have := jFuel_pos x
          simp [jFuelList] at hfuel
          omega
        have harg : dumpElems (y :: ys) ++ 93 :: rest =
            44 :: (dumpJson y ++ (dumpElems ys ++ 93 :: rest)) := by
          show (44 :: (dumpJson y ++ dumpElems ys)) ++ 93 :: rest = _
          simp [List.append_assoc]
        rw [harg]
        simp only [if_pos rfl]
        rw [ihE y ys rest hfuel2]
        rfl
    · intro k v fs rest hfuel
      rw [parseMembers_succ]
      simp only [if_pos rfl]
      rw [parseStrBody_escape k (58 :: (dumpJson v ++ (dumpFields fs ++ 125 :: rest)))]
      simp only [if_pos rfl]
      have hJ : parseJ f (dumpJson v ++ (dumpFields fs ++ 125 :: rest)) =
          some (v, dumpFields fs ++ 125 :: rest) :=
        ihJ v _ (by omega) (headNotDigit_dumpFields fs rest)
      rw [hJ]
      cases fs with
      | nil =>
        simp [dumpFields]
      | cons g gs =>
        obtain ⟨k2, v2⟩ := g
        have hfuel2 : jFuel v2 + jFuelFields gs + 1 ≤ f := by
          have := jFuel_pos v
          simp [jFuelFields] at hfuel
          omega
        have harg : dumpFields ((k2, v2) :: gs) ++ 125 :: rest =
            44 :: 34 :: (escStr k2 ++ 34 :: 58 :: (dumpJson v2 ++ (dumpFields gs ++ 125 :: rest))) := by
          show (44 :: (dumpField (k2, v2) ++ dumpFields gs)) ++ 125 :: rest = _
          simp [dumpField, List.append_assoc]
        rw [harg]
        simp only [if_pos rfl]
        rw [ihM k2 v2 gs rest hfuel2]
        rfl

theorem jFuelList_le (xs : List Json) (ih : ∀ x ∈ xs, jFuel x ≤ 2 * (dumpJson x).length) :
    jFuelList xs ≤ 2 * (dumpElems xs).length := by
  induction xs with
  | nil => simp [jFuelList, dumpElems]
  | cons x t iht =>
    simp only [jFuelList, dumpElems, List.length_cons, List.length_append]
    have h1 := ih x (List.mem_cons_self x t)
    have h2 := iht (fun y hy => ih y (List.mem_cons_of_mem x hy))
    omega

theorem jFuelFields_le (fs : List (Bytes × Json))
    (ih : ∀ p ∈ fs, jFuel p.2 ≤ 2 * (dumpJson p.2).length) :
    jFuelFields fs ≤ 2 * (dumpFields fs).length := by
  induction fs with
  | nil => simp [jFuelFields, dumpFields]
  | cons p t iht =>
    obtain ⟨k, v⟩ := p
    simp only [jFuelFields, dumpFields, dumpField, List.length_cons, List.length_append]
    have h1 := ih (k, v) (List.mem_cons_self _ t)
    have h2 := iht (fun q hq => ih q (List.mem_cons_of_mem _ hq))
    simp at h1
    omega

theorem jFuel_le_dump (v : Json) : jFuel v ≤ 2 * (dumpJson v).length := by
  refine json_induction (fun v => jFuel v ≤ 2 * (dumpJson v).length) ?_ ?_ ?_ ?_ ?_ ?_ v
  · simp [jFuel, dumpJson]
  · intro b
    cases b <;> simp [jFuel, dumpJson]
  · intro n
    have hlen : 0 < (intDump n).length := List.length_pos.mpr (intDump_ne_nil n)
    show jFuel (.num n) ≤ 2 * (intDump n).length
    simp [jFuel]
    omega
  · intro s
    show jFuel (.str s) ≤ 2 * (34 :: (escStr s ++ [34])).length
    simp [jFuel]
    omega
  · intro xs ih
    have h := jFuelList_le xs ih
    cases xs with
    | nil => simp [jFuel, jFuelList, dumpJson]
    | cons x t =>
      show 1 + jFuelList (x :: t) ≤ 2 * (91 :: (dumpJson x ++ dumpElems t) ++ [93]).length
      simp only [jFuelList, List.length_append, List.length_cons] at h ⊢
      simp only [dumpElems, List.length_cons, List.length_append] at h
      omega
  · intro fs ih
    have h := jFuelFields_le fs ih
    cases fs with
    | nil => simp [jFuel, jFuelFields, dumpJson]
    | cons p t =>
      obtain ⟨k2, v2⟩ := p
      have h1 := ih (k2, v2) (List.mem_cons_self _ t)
      have h2 := jFuelFields_le t (fun q hq => ih q (List.mem_cons_of_mem _ hq))
      show 1 + jFuelFields ((k2, v2) :: t) ≤
        2 * (123 :: (dumpField (k2, v2) ++ dumpFields t) ++ [125]).length
      simp only [jFuelFields, dumpField, List.length_cons, List.length_append] at h1 h2 ⊢
      omega

theorem loads_dump (v : Json) : loads (dumpJson v) = some v := by
  unfold loads
  have hfe : jFuel v ≤ 2 * (dumpJson v).length + 2 := by
    have := jFuel_le_dump v
    omega
  have h := (parse_dump_triple (2 * (dumpJson v).length + 2)).1 v [] hfe rfl
  rw [List.append_nil] at h
  rw [h]

theorem isEnvelope_sortJson (v : Json) (h : isEnvelope v = true) :
    isEnvelope (sortJson v) = true := by
  cases v with
  | obj fs =>
    show (sortFields (sortVals fs)).any (fun p => p.1 == schemaRefKey) = true
    rw [perm_any _ (sortFields_perm (sortVals fs))]
    rw [any_fst, sortVals_eq_map, List.map_map]
    have hcomp : (Prod.fst ∘ fun p : Bytes × Json => (p.1, sortJson p.2)) = Prod.fst := rfl
    rw [hcomp, ← any_fst]
    exact h
  | null => simp [isEnvelope] at h
  | bool b => simp [isEnvelope] at h
  | num n => simp [isEnvelope] at h
  | str s => simp [isEnvelope] at h
  | arr xs => simp [isEnvelope] at h

/-- Decode composed with an ideal zlib compressor: the compressed frame is a
stand-in non-empty byte string (zlib header bytes then the payload), and the
decompressor recovers the payload exactly: no unconsumed tail, no unused
data, footer reached, no size cap. -/
def decode_compress (m : Bytes) : Except DecodeError Bytes :=
  decode_msg (fun _ _ => ⟨m, [], [], true⟩) (120 :: 156 :: m) 0

theorem decode_compress_loads (m : Bytes) (v : Json) (hm : loads m = some v)
    (henv : isEnvelope v = true) : decode_compress m = .ok (dumpJson (sortJson v)) := by
  have hmne : m ≠ [] := by
    intro h
    rw [h] at hm
    have : loads ([] : Bytes) = none := rfl
    rw [this] at hm
    cases hm
  simp [decode_compress, decode_msg, hmne, hm, henv]

/-- C3: decoding is canonicalizing and idempotent. For every valid envelope
(bytes whose JSON value is an object containing $schemaRef), decoding the
compressed envelope yields the key-sorted serialization; decoding the
compressed decode output reproduces it bytewise (idempotence); the output
keys are sorted lexicographically at every nesting depth; and any second
input identical to the first up to key ordering produces byte-identical
output. -/
theorem c3_canonicalization (m m2 : Bytes) (v w : Json)
    (hm : loads m = some v) (henv : isEnvelope v = true)
    (hm2 : loads m2 = some w) (heq : JEquiv v w) :
    decode_compress m = .ok (dumpJson (sortJson v)) ∧
    decode_compress (dumpJson (sortJson v)) = .ok (dumpJson (sortJson v)) ∧
    sortedDeep (sortJson v) = true ∧
    decode_compress m2 = decode_compress m := by
  have h1 : decode_compress m = .ok (dumpJson (sortJson v)) :=
    decode_compress_loads m v hm henv
  have h2 : decode_compress (dumpJson (sortJson v)) = .ok (dumpJson (sortJson v)) := by
    have := decode_compress_loads (dumpJson (sortJson v)) (sortJson v)
      (loads_dump (sortJson v)) (isEnvelope_sortJson v henv)
    rw [sortJson_idem v] at this
    exact this
  have h4 : decode_compress m2 = decode_compress m := by
    have henv2 : isEnvelope w = true := by
      rw [← jequiv_isEnvelope v w heq]
      exact henv
    have := decode_compress_loads m2 w hm2 henv2
    rw [this, h1, jequiv_dump_sort v w heq]
  exact ⟨h1, h2, sortedDeep_sortJson v, h4⟩

/-- The JSON text of the same object as exampleEnvelopeBytes with the two
keys in the other order. -/
def exampleEnvelope2Bytes : Bytes :=
  [123, 34, 36, 115, 99, 104, 101, 109, 97, 82, 101, 102, 34, 58, 34, 120, 34, 44, 34, 98, 34,
   58, 49, 125]

/-- The parsed value of exampleEnvelope2Bytes. -/
def exampleEnvelope2 : Json :=
  .obj [(schemaRefKey, .str [120]), ([98], .num 1)]

/-- Witness for c3_canonicalization: the object with keys b and $schemaRef,
in both key orders. -/
theorem c3_canonicalization_witness :
    loads exampleEnvelopeBytes = some exampleEnvelope ∧
    loads exampleEnvelope2Bytes = some exampleEnvelope2 ∧
    decode_compress exampleEnvelopeBytes = .ok (dumpJson (sortJson exampleEnvelope)) ∧
    decode_compress (dumpJson (sortJson exampleEnvelope)) =
      .ok (dumpJson (sortJson exampleEnvelope)) ∧
    sortedDeep (sortJson exampleEnvelope) = true ∧
    decode_compress exampleEnvelope2Bytes = decode_compress exampleEnvelopeBytes := by
  have heq : JEquiv exampleEnvelope exampleEnvelope2 := by
    refine JEquiv.obj [([98], Json.num 1), (schemaRefKey, Json.str [120])]
      [([98], Json.num 1), (schemaRefKey, Json.str [120])]
      [(schemaRefKey, Json.str [120]), ([98], Json.num 1)] (by decide) rfl ?_ ?_
    · exact List.Forall₂.cons (JEquiv.num 1)
        (List.Forall₂.cons (JEquiv.str [120]) List.Forall₂.nil)
    · exact List.Perm.swap (schemaRefKey, Json.str [120]) ([98], Json.num 1) []
  have h := c3_canonicalization exampleEnvelopeBytes exampleEnvelope2Bytes
    exampleEnvelope exampleEnvelope2 rfl rfl rfl heq
  exact ⟨rfl, rfl, h.1, h.2.1, h.2.2.1, h.2.2.2⟩
